import Mathlib

set_option autoImplicit false

/-
Verification of the MyGrad view/in-place-mutation autodiff core and its io layer.

The tensor core (buffer/view model, graph builder, in-place mutation handler,
backward executor, memory guard) is not shipped in this excerpt of the
repository; only its tests and the io module are.  The core is therefore
modelled here from the specification (spec.md sections 3, 4.1-4.6 and 9), as a
small-step functional engine:

* storage buffers with a user-declared writeability flag and a memory-guard
  lock count (section 4.6);
* an append-only DAG of graph nodes, each node reading its value through an
  index map into a buffer (sections 3, 4.3 and the design note in section 9:
  mutation inserts a synthetic node, old nodes remain valid);
* tensor objects (the user-visible handles) pointing at nodes and carrying the
  flattened base link of the view family (section 4.3 step 3);
* an in-place mutation handler that validates, then appends a mutation node
  holding the written storage and re-points the whole view family (section 4.4);
* a reverse-topological backward executor with view gradients deposited into
  the family root accumulator (section 4.5).

Scalars are modelled as integers: every behaviour under test is exact
arithmetic on small values, so the carrier does not matter.
-/

/-- Errors raised synchronously by the engine (spec section 7 taxonomy). -/
inductive MErr where
  | shapeError
  | writeError
  | indexError
  | typeError
  deriving DecidableEq, Repr

/-- Modelled from the spec: a raw storage buffer of the missing buffer/view
model (section 4.1): numeric contents, the user-declared writeability flag,
and a count of outstanding memory-guard locks (section 4.6). -/
structure Buf where
  data : List Int
  origW : Bool
  locks : Nat
  deriving DecidableEq, Repr

/-- Modelled from the spec: the operation kinds of the missing operation
registry (section 4.2) that the tests exercise. -/
inductive Op where
  | plus
  | mulC (c : Int)
  | mulSeq
  | viewStep
  | setitem (w : List Nat)
  deriving DecidableEq, Repr

/-- Modelled from the spec: a graph node (sections 3 and 4.3).  A node reads
its value through `idx` (absolute element positions) into buffer `buf`;
`baseNode` is the flattened root node of its view family (`none` for a root),
`creator` the producing operation and operand node ids, `locked` the buffers
whose memory-guard lock this node's recording took. -/
structure Node where
  buf : Nat
  idx : List Nat
  baseNode : Option Nat
  creator : Option (Op × List Nat)
  constant : Bool
  locked : List Nat
  deriving DecidableEq, Repr

instance : Inhabited Node := ⟨⟨0, [], none, none, true, []⟩⟩

/-- Modelled from the spec: a user-visible tensor handle.  An in-place
mutation re-points the handles of the whole view family to fresh nodes while
old nodes keep the recorded history (section 4.4 step 4). -/
structure TensRec where
  node : Nat
  baseObj : Option Nat
  deriving DecidableEq, Repr

/-- Modelled from the spec: the whole engine state: buffers, the append-only
node DAG, tensor handles, the process-wide memory-guard toggle (section 4.6)
and the gradient accumulators of the last backward pass (section 4.5). -/
structure State where
  bufs : List Buf
  nodes : List Node
  tens : List TensRec
  guard : Bool
  gacc : List (Option (List Int))
  deriving DecidableEq, Repr

/-- Source of an in-place assignment: a broadcast scalar or a tensor handle. -/
inductive Src where
  | scalar (c : Int)
  | tensor (o : Nat)
  deriving DecidableEq, Repr

/-! ### List helpers -/

/-- Read a list through a list of element positions. -/
def gatherIdx (d : List Int) (ix : List Nat) : List Int :=
  ix.map (fun p => d.getD p 0)

def zerosL (n : Nat) : List Int := List.replicate n 0

def onesL (n : Nat) : List Int := List.replicate n 1

/-- Overwrite the given positions with the given values, pointwise. -/
def writeAt : List Int → List Nat → List Int → List Int
  | d, [], _ => d
  | d, _ :: _, [] => d
  | d, p :: ps, v :: vs => writeAt (d.set p v) ps vs

/-- Add the given values into the given positions, pointwise. -/
def scatterAdd : List Int → List Nat → List Int → List Int
  | d, [], _ => d
  | d, _ :: _, [] => d
  | d, p :: ps, v :: vs => scatterAdd (d.set p (d.getD p 0 + v)) ps vs

def addVec (a b : List Int) : List Int := List.zipWith (· + ·) a b

/-- Zero out the positions listed in `w`. -/
def maskOut (g : List Int) (w : List Nat) : List Int :=
  (List.range g.length).map (fun j => if j ∈ w then 0 else g.getD j 0)

/-! ### State accessors -/

def bufAt (s : State) (b : Nat) : Buf := s.bufs.getD b ⟨[], true, 0⟩

def nodeAt (s : State) (i : Nat) : Node := s.nodes.getD i default

def tensAt (s : State) (o : Nat) : TensRec := s.tens.getD o ⟨0, none⟩

/-- Root node of a node's view family (itself when it is a root). -/
def nodeRootId (s : State) (i : Nat) : Nat := (nodeAt s i).baseNode.getD i

/-- Root handle of a tensor handle's view family (itself when it is a root). -/
def rootObjId (s : State) (o : Nat) : Nat := (tensAt s o).baseObj.getD o

/-- Value of a node: its buffer read through its index map. -/
def ndata (nodes : List Node) (bufs : List Buf) (k : Nat) : List Int :=
  gatherIdx (bufs.getD (nodes.getD k default).buf ⟨[], true, 0⟩).data
    (nodes.getD k default).idx

def nodeData (s : State) (i : Nat) : List Int := ndata s.nodes s.bufs i

/-- Value of a tensor handle. -/
def dataOf (s : State) (o : Nat) : List Int := nodeData s (tensAt s o).node

def constOf (s : State) (o : Nat) : Bool := (nodeAt s (tensAt s o).node).constant

def baseObjOf (s : State) (o : Nat) : Option Nat := (tensAt s o).baseObj

def bufOfObj (s : State) (o : Nat) : Nat := (nodeAt s (tensAt s o).node).buf

/-- Writeability a user observes: the declared flag, forced to false while
the memory guard holds at least one lock on the buffer (spec section 4.6). -/
def writeableOf (s : State) (b : Nat) : Bool :=
  (bufAt s b).origW && (bufAt s b).locks == 0

/-- Two handles share memory when they read overlapping regions of one
buffer (spec section 4.1). -/
def sharesMemory (s : State) (o1 o2 : Nat) : Prop :=
  bufOfObj s o1 = bufOfObj s o2 ∧
    ∃ p ∈ (nodeAt s (tensAt s o1).node).idx, p ∈ (nodeAt s (tensAt s o2).node).idx

instance (s : State) (o1 o2 : Nat) : Decidable (sharesMemory s o1 o2) := by
  unfold sharesMemory; infer_instance

/-! ### Memory-guard lock bookkeeping -/

def bumpLock (bufs : List Buf) (b : Nat) : List Buf :=
  match bufs.get? b with
  | none => bufs
  | some r => bufs.set b { r with locks := r.locks + 1 }

def bumpLocks (bufs : List Buf) : List Nat → List Buf
  | [] => bufs
  | b :: bs => bumpLocks (bumpLock bufs b) bs

def decLock (bufs : List Buf) (b : Nat) : List Buf :=
  match bufs.get? b with
  | none => bufs
  | some r => bufs.set b { r with locks := r.locks - 1 }

def decLocks (bufs : List Buf) : List Nat → List Buf
  | [] => bufs
  | b :: bs => decLocks (decLock bufs b) bs

/-! ### Operation registry (spec section 4.2) -/

def prodLists : List (List Int) → List Int
  | [] => []
  | d :: ds => ds.foldl (fun a b => List.zipWith (· * ·) a b) d

def prodExcept (ds : List (List Int)) (k : Nat) : List Int :=
  prodLists ((ds.enum.filter (fun p => p.1 ≠ k)).map Prod.snd)

/-- Modelled from the spec: forward functions of the missing operation
registry (section 4.2).  View and mutation kinds are built by dedicated
constructors below and never dispatched through here. -/
def opForward : Op → List (List Int) → List Int
  | .plus, ds => ds.headD []
  | .mulC c, ds => (ds.headD []).map (fun v => c * v)
  | .mulSeq, ds => prodLists ds
  | .viewStep, ds => ds.headD []
  | .setitem _, ds => ds.headD []

/-- Modelled from the spec: backward functions of the missing operation
registry (section 4.2): one gradient contribution per operand, computed from
the operand values and the upstream gradient.  For a mutation node the prior
value receives the upstream gradient with the overwritten region zeroed, and
the source receives the gradient of the region it was written into. -/
def opBackGrads (op : Op) (ds : List (List Int)) (g : List Int) : List (List Int) :=
  match op with
  | .plus => [g]
  | .mulC c => [g.map (fun v => c * v)]
  | .mulSeq => (List.range ds.length).map (fun k => List.zipWith (· * ·) g (prodExcept ds k))
  | .viewStep => [g]
  | .setitem w =>
      match ds with
      | [_] => [maskOut g w]
      | [_, sv] =>
          [maskOut g w,
            if sv.length = w.length then gatherIdx g w else [(gatherIdx g w).sum]]
      | _ => []

/-! ### Graph construction (spec section 4.3) -/

def initState : State := ⟨[], [], [], true, []⟩

/-- Modelled from the spec: a user-created leaf tensor (section 3 lifecycle)
with declared constant flag and declared buffer writeability. -/
def mkLeaf (s : State) (d : List Int) (c w : Bool) : State × Nat :=
  let b := s.bufs.length
  let n := s.nodes.length
  let o := s.tens.length
  ({ s with
      bufs := s.bufs ++ [⟨d, w, 0⟩],
      nodes := s.nodes ++ [⟨b, List.range d.length, none, none, c, []⟩],
      tens := s.tens ++ [⟨n, none⟩] }, o)

/-- Modelled from the spec: graph builder for a non-view operation (section
4.3): compute the forward value into a fresh buffer, record the creator edge,
propagate the constant flag as the conjunction of operand flags, and take a
memory-guard lock on each operand's buffer while the guard is enabled. -/
def applyOp (s : State) (op : Op) (args : List Nat) : State × Nat :=
  let ds := args.map (dataOf s)
  let d := opForward op ds
  let b := s.bufs.length
  let n := s.nodes.length
  let o := s.tens.length
  let lockedBufs := if s.guard then args.map (bufOfObj s) else []
  ({ s with
      bufs := bumpLocks (s.bufs ++ [⟨d, true, 0⟩]) lockedBufs,
      nodes := s.nodes ++
        [⟨b, List.range d.length, none, some (op, args.map (fun a => (tensAt s a).node)),
          args.all (fun a => constOf s a), lockedBufs⟩],
      tens := s.tens ++ [⟨n, none⟩] }, o)

/-- Modelled from the spec: graph builder for a view-producing operation
(sections 4.1, 4.3 step 3).  `rel` lists the selected element positions of the
parent; the result aliases the parent's buffer through composed absolute
positions, and its base link is flattened to the ultimate root both at node
level and at handle level. -/
def viewNodeOf (s : State) (t : Nat) (rel : List Nat) : Node :=
  ⟨(nodeAt s (tensAt s t).node).buf,
    rel.map (fun j => (nodeAt s (tensAt s t).node).idx.getD j 0),
    some (nodeRootId s (tensAt s t).node),
    some (.viewStep, [(tensAt s t).node]),
    (nodeAt s (tensAt s t).node).constant, []⟩

def viewTensOf (s : State) (t : Nat) : TensRec :=
  ⟨s.nodes.length, some (rootObjId s t)⟩

def mkView (s : State) (t : Nat) (rel : List Nat) : State × Nat :=
  ({ s with
      nodes := s.nodes ++ [viewNodeOf s t rel],
      tens := s.tens ++ [viewTensOf s t] }, s.tens.length)

/-! ### In-place mutation handler (spec section 4.4) -/

/-- Modelled from the spec: the write phase of the mutation handler (section
4.4 steps 3-5 and the section 9 design note).  All validation has already
succeeded.  The written storage is materialised as a fresh buffer (the old
nodes keep the prior value: the append-only DAG never mutates recorded
history), a synthetic mutation node over the prior root and the source is
appended, and every handle of the view family is re-pointed to fresh nodes of
the new family so that all of them read the mutated data and the updated
constant flag. -/
def famOf (s : State) (rObj : Nat) : List Nat :=
  (List.range s.tens.length).filter (fun o => rootObjId s o == rObj && o != rObj)

/-- Absolute buffer positions addressed by an in-place assignment through the
target handle's index map. -/
def absWOf (s : State) (t : Nat) (sel : List Nat) : List Nat :=
  sel.map (fun j => (nodeAt s (tensAt s t).node).idx.getD j 0)

/-- The written storage of an in-place assignment: the target root's buffer
with the addressed region overwritten by the broadcast source values. -/
def doWriteData (s : State) (t : Nat) (sel : List Nat) (vals : List Int) : List Int :=
  writeAt (bufAt s (nodeAt s (nodeRootId s (tensAt s t).node)).buf).data
    (absWOf s t sel) vals

/-- The synthetic mutation node (spec section 4.4 step 4): a fresh root over
the written storage whose operands are the prior value (the old root node)
and the source. -/
def mutantNodeOf (s : State) (t : Nat) (sel : List Nat) (vals : List Int)
    (srcNode : Option Nat) (srcConst : Bool) : Node :=
  ⟨s.bufs.length, List.range (doWriteData s t sel vals).length, none,
    some (.setitem (absWOf s t sel),
      [nodeRootId s (tensAt s t).node] ++
        (match srcNode with | none => [] | some sn => [sn])),
    (nodeAt s (nodeRootId s (tensAt s t).node)).constant && srcConst,
    if s.guard then
      [(nodeAt s (nodeRootId s (tensAt s t).node)).buf] ++
        (match srcNode with | none => [] | some sn => [(nodeAt s sn).buf]) ++
        [s.bufs.length]
    else []⟩

/-- The fresh node a re-pointed family view handle receives: same index map,
over the written storage, based at the mutation node. -/
def famViewNodeOf (s : State) (o : Nat) (newConst : Bool) : Node :=
  ⟨s.bufs.length, (nodeAt s (tensAt s o).node).idx, some s.nodes.length,
    some (.viewStep, [s.nodes.length]), newConst, []⟩

def doWrite (s : State) (t : Nat) (sel : List Nat) (vals : List Int)
    (srcNode : Option Nat) (srcConst : Bool) : State :=
  let rObj := rootObjId s t
  let k := s.nodes.length
  let mutant := mutantNodeOf s t sel vals srcNode srcConst
  let fam := famOf s rObj
  let viewNodes := fam.map (fun o => famViewNodeOf s o mutant.constant)
  let newTens := (List.range s.tens.length).map (fun o =>
    if o = rObj then ({ node := k, baseObj := none } : TensRec)
    else if o ∈ fam then ({ node := k + 1 + fam.indexOf o, baseObj := some rObj } : TensRec)
    else tensAt s o)
  { s with
      bufs := bumpLocks (s.bufs ++ [⟨doWriteData s t sel vals, true, 0⟩]) mutant.locked,
      nodes := s.nodes ++ [mutant] ++ viewNodes,
      tens := newTens }

/-- Broadcast the source of an in-place assignment against the addressed
region (already known to be broadcast-compatible). -/
def srcVals (s : State) (sel : List Nat) : Src → List Int
  | .scalar c => List.replicate sel.length c
  | .tensor ts =>
      if (dataOf s ts).length = sel.length then dataOf s ts
      else List.replicate sel.length ((dataOf s ts).getD 0 0)

def srcConstB (s : State) : Src → Bool
  | .scalar _ => true
  | .tensor ts => constOf s ts

def srcNodeOf (s : State) : Src → Option Nat
  | .scalar _ => none
  | .tensor ts => some (tensAt s ts).node

/-- Modelled from the spec: the public in-place assignment contract (section
4.4).  Resolve the root, verify writeability (the user-declared flag, unless
the scoped guard override is active), validate the selection and
broadcast-check the source against the addressed region; every failure raises
before any byte is written. -/
def setitem (s : State) (t : Nat) (sel : List Nat) (src : Src) : Except MErr State :=
  if t < s.tens.length then
    if s.guard && !(bufAt s (nodeAt s (nodeRootId s (tensAt s t).node)).buf).origW then
      .error .writeError
    else if (∀ j ∈ sel, j < (nodeAt s (tensAt s t).node).idx.length) ∧ sel.Nodup then
      match src with
      | .scalar c => .ok (doWrite s t sel (srcVals s sel (.scalar c)) none true)
      | .tensor ts =>
          if ts < s.tens.length then
            if (dataOf s ts).length = sel.length ∨ (dataOf s ts).length = 1 then
              .ok (doWrite s t sel (srcVals s sel (.tensor ts))
                (some (tensAt s ts).node) (constOf s ts))
            else .error .shapeError
          else .error .indexError
    else .error .indexError
  else .error .indexError

/-- Run an in-place assignment the way a caller that catches the raised error
observes it: a failed call leaves the state it was given. -/
def tryInPlace (s : State) (t : Nat) (sel : List Nat) (src : Src) : State :=
  match setitem s t sel src with
  | .ok s2 => s2
  | .error _ => s

/-! ### Backward executor (spec section 4.5) -/

def nodeParents (n : Node) : List Nat :=
  (match n.creator with | none => [] | some pr => pr.2) ++
    (match n.baseNode with | none => [] | some r => [r])

def depositAt (acc : Nat → Option (List Int)) (k : Nat) (g : List Int) :
    Nat → Option (List Int) :=
  fun j => if j = k then some (match acc k with | none => g | some a => addVec a g) else acc j

/-- Accumulate gradient contributions, pruning constant targets (spec
section 4.5 step 4). -/
def depositMany (nodes : List Node) (acc : Nat → Option (List Int)) :
    List (Nat × List Int) → (Nat → Option (List Int))
  | [] => acc
  | (k, gk) :: rest =>
      depositMany nodes
        (if (nodes.getD k default).constant then acc else depositAt acc k gk) rest

/-- Modelled from the spec: processing of one node of the missing backward
executor (section 4.5 steps 2-4).  A view node deposits its accumulated
gradient into the family root through the storage correspondence (step 3); a
root node applies the operation's backward rule to its operands. -/
def stepNode (nodes : List Node) (bufs : List Buf) (i : Nat)
    (acc : Nat → Option (List Int)) : Nat → Option (List Int) :=
  match acc i with
  | none => acc
  | some g =>
      match (nodes.getD i default).baseNode with
      | some r =>
          depositMany nodes acc
            [(r, scatterAdd (zerosL (nodes.getD r default).idx.length)
              (nodes.getD i default).idx g)]
      | none =>
          match (nodes.getD i default).creator with
          | none => acc
          | some pr =>
              depositMany nodes acc
                (pr.2.zip (opBackGrads pr.1 (pr.2.map (fun k => ndata nodes bufs k)) g))

/-- Modelled from the spec: the reverse-topological sweep (section 4.5 step
2).  Node ids grow with creation order and every edge points to a strictly
smaller id, so descending ids are a topological order: a node is processed
only after every consumer has contributed. -/
def bprop (nodes : List Node) (bufs : List Buf) :
    Nat → (Nat → Option (List Int)) → (Nat → Option (List Int))
  | 0, acc => acc
  | i + 1, acc => bprop nodes bufs i (stepNode nodes bufs i acc)

/-- Ancestor node ids of a frontier, through creator edges and base links. -/
def ancFrom (nodes : List Node) : Nat → List Nat → List Nat
  | 0, fr => fr
  | fuel + 1, fr =>
      fr ++ ancFrom nodes fuel ((fr.map (fun i => nodeParents (nodes.getD i default))).flatten)

def clearLocked (nodes : List Node) : List Nat → List Node
  | [] => nodes
  | i :: is =>
      clearLocked
        (match nodes.get? i with
         | none => nodes
         | some n => nodes.set i { n with locked := [] }) is

/-- Seed accumulator of a backward pass: the terminal node carries the given
upstream gradient (default: ones), unless it is constant (spec section 4.5
steps 1 and 4). -/
def seedAcc (s : State) (t : Nat) (sd : Option (List Int)) : Nat → Option (List Int) :=
  fun j =>
    if j = (tensAt s t).node ∧ (nodeAt s (tensAt s t).node).constant = false then
      some (sd.getD (onesL (nodeAt s (tensAt s t).node).idx.length))
    else none

/-- Modelled from the spec: the backward executor (section 4.5).  Seed the
terminal's accumulator (default: ones), sweep the DAG in reverse topological
order, store the accumulators, then release the memory-guard locks taken by
the terminal's graph segment (step 5 and section 4.6). -/
def backward (s : State) (t : Nat) (sd : Option (List Int)) : State :=
  let accF := bprop s.nodes s.bufs s.nodes.length (seedAcc s t sd)
  let ancs := (ancFrom s.nodes s.nodes.length [(tensAt s t).node]).dedup
  { s with
      bufs := decLocks s.bufs ((ancs.map (fun i => (nodeAt s i).locked)).flatten),
      nodes := clearLocked s.nodes ancs,
      gacc := (List.range s.nodes.length).map accF }

/-- Modelled from the spec: forced early release of a node's graph segment
(section 6 `clear_graph`): release the memory-guard locks its graph took. -/
def clearGraph (s : State) (t : Nat) : State :=
  let tn := (tensAt s t).node
  let ancs := (ancFrom s.nodes s.nodes.length [tn]).dedup
  let lockedAll := (ancs.map (fun i => (nodeAt s i).locked)).flatten
  { s with bufs := decLocks s.bufs lockedAll, nodes := clearLocked s.nodes ancs }

/-- Scoped memory-guard override (spec section 4.6): toggle the process-wide
enforcement flag. -/
def setGuard (s : State) (b : Bool) : State := { s with guard := b }

/-- Gradient a tensor handle exposes after a backward pass: the family root's
accumulator read through the handle's own index map — a view's gradient is a
view of its base's gradient (spec section 4.5 step 3). -/
def gradOf (s : State) (o : Nat) : Option (List Int) :=
  (s.gacc.getD (nodeRootId s (tensAt s o).node) none).map
    (fun g => gatherIdx g (nodeAt s (tensAt s o).node).idx)

/-! ### Well-formedness invariant -/

/-- Well-formedness of one graph node: buffer and index bounds, no repeated
element position, flattened base links pointing strictly backwards at a root
over the same buffer, root nodes covering their whole buffer, and creator
edges pointing strictly backwards. -/
def NodeWF (s : State) (i : Nat) : Prop :=
  (nodeAt s i).buf < s.bufs.length ∧
  (∀ p ∈ (nodeAt s i).idx, p < (bufAt s (nodeAt s i).buf).data.length) ∧
  (nodeAt s i).idx.Nodup ∧
  ((nodeAt s i).baseNode = none →
    (nodeAt s i).idx = List.range (bufAt s (nodeAt s i).buf).data.length) ∧
  (∀ r ∈ (nodeAt s i).baseNode.toList,
    r < i ∧ (nodeAt s r).baseNode = none ∧ (nodeAt s r).buf = (nodeAt s i).buf) ∧
  (∀ pr ∈ (nodeAt s i).creator.toList, ∀ k ∈ pr.2, k < i) ∧
  (∀ r ∈ (nodeAt s i).baseNode.toList, (nodeAt s i).constant = (nodeAt s r).constant)

/-- Well-formedness of one tensor handle: its node exists, and its base link
points at a root handle whose node is the root node of its own family. -/
def TensWF (s : State) (o : Nat) : Prop :=
  (tensAt s o).node < s.nodes.length ∧
  ((tensAt s o).baseObj = none → (nodeAt s (tensAt s o).node).baseNode = none) ∧
  (∀ b ∈ (tensAt s o).baseObj.toList,
    b < s.tens.length ∧ (tensAt s b).baseObj = none ∧
      nodeRootId s (tensAt s o).node = (tensAt s b).node)

def StInv (s : State) : Prop :=
  (∀ i, i < s.nodes.length → NodeWF s i) ∧ (∀ o, o < s.tens.length → TensWF s o)

instance (s : State) (i : Nat) : Decidable (NodeWF s i) := by
  unfold NodeWF; infer_instance

instance (s : State) (o : Nat) : Decidable (TensWF s o) := by
  unfold TensWF; infer_instance

instance (s : State) : Decidable (StInv s) := by
  unfold StInv; infer_instance

/-! ### Basic gather/scatter lemmas -/

theorem gatherIdx_length (d : List Int) (ix : List Nat) :
    (gatherIdx d ix).length = ix.length := by
  simp [gatherIdx]

theorem gatherIdx_range (d : List Int) : gatherIdx d (List.range d.length) = d := by
  unfold gatherIdx
  apply List.ext_getElem
  · simp
  · intro i h1 h2
    simp only [List.getElem_map, List.getElem_range]
    exact List.getD_eq_getElem d 0 h2

theorem gatherIdx_range_len (d : List Int) {n : Nat} (h : d.length = n) :
    gatherIdx d (List.range n) = d := by
  subst h; exact gatherIdx_range d

/-! ### The io layer (src/src/mygrad/io.py) -/

/-- Argument passed to `save`: a tensor handle of the engine state, or any
object that is not a Tensor. -/
inductive SaveArg where
  | tens (o : Nat)
  | notATensor
  deriving DecidableEq, Repr

/-- The persisted container written by `save`: a single file holding exactly
the two named arrays `data` and `grad`, the latter an absence marker when the
tensor has no gradient. -/
structure SavedFile where
  data : List Int
  grad : Option (List Int)
  deriving DecidableEq, Repr

/-- Embedding of `save` (src/src/mygrad/io.py, lines 7-27): a non-Tensor
argument raises `TypeError` before anything is written; a tensor is persisted
as exactly its `data` and `grad` arrays. -/
def save (s : State) : SaveArg → Except MErr SavedFile
  | .notATensor => .error .typeError
  | .tens o => .ok ⟨dataOf s o, gradOf s o⟩

/-- Embedding of `load` (src/src/mygrad/io.py, lines 30-49): construct a
fresh tensor from the stored `data`, then call `backward` on it with the
stored `grad`.  The tensor constructor and `backward` are the spec-modelled
engine above, `tensor_base` not being part of this excerpt. -/
def load (f : SavedFile) : State × Nat :=
  let p := mkLeaf initState f.data false true
  (backward p.1 p.2 f.grad, p.2)

/-- C9: `save` raises a TypeError on every non-Tensor argument and writes
nothing (the error carries no file), and for every tensor it persists exactly
the two named arrays `data` and `grad`, with `grad` the absence marker
whenever no gradient exists. -/
theorem save_typeerror_and_exact_payload (s : State) :
    save s .notATensor = .error .typeError ∧
    ∀ o, save s (.tens o) = .ok ⟨dataOf s o, gradOf s o⟩ :=
  ⟨rfl, fun _ => rfl⟩

/-- C8 counterexample: loading a file whose `grad` is the absence marker does
not give back a tensor whose gradient equals the saved one.  `load` passes
the stored absent gradient to `backward`, whose default seed is ones (spec
section 4.5), so the loaded tensor carries gradient `[1]` where the file
stored no gradient at all. -/
theorem load_absent_grad_counterexample :
    (SavedFile.mk [5] none).grad = none ∧
    dataOf (load ⟨[5], none⟩).1 (load ⟨[5], none⟩).2 = [5] ∧
    gradOf (load ⟨[5], none⟩).1 (load ⟨[5], none⟩).2 = some [1] := by
  decide

/-- C8 (amended): for every saved file that actually stores a gradient (of
the same length as the data), `load` reconstructs a tensor from the stored
`data` and immediately applies the stored `grad` as if a backward pass had
deposited it: the returned tensor's data equals the saved data and its
gradient equals the saved gradient.  When the stored gradient is absent, the
unconditional `backward` call instead seeds the default gradient of ones. -/
theorem load_restores_data_and_seeded_grad (f : SavedFile) (g : List Int)
    (hg : f.grad = some g) (hlen : g.length = f.data.length) :
    dataOf (load f).1 (load f).2 = f.data ∧
    gradOf (load f).1 (load f).2 = f.grad := by
  obtain ⟨d, gr⟩ := f
  cases hg
  refine ⟨?_, ?_⟩
  · show gatherIdx d (List.range d.length) = d
    exact gatherIdx_range d
  · show some (gatherIdx g (List.range d.length)) = some g
    exact congrArg some (gatherIdx_range_len g hlen)

theorem load_restores_data_and_seeded_grad_witness :
    ((SavedFile.mk [7, 8] (some [3, 4])).grad = some [3, 4] ∧
      ([3, 4] : List Int).length = ([7, 8] : List Int).length) ∧
    (dataOf (load ⟨[7, 8], some [3, 4]⟩).1 (load ⟨[7, 8], some [3, 4]⟩).2 = [7, 8] ∧
      gradOf (load ⟨[7, 8], some [3, 4]⟩).1 (load ⟨[7, 8], some [3, 4]⟩).2 = some [3, 4]) :=
  ⟨⟨rfl, rfl⟩, load_restores_data_and_seeded_grad ⟨[7, 8], some [3, 4]⟩ [3, 4] rfl rfl⟩

/-! ### C1: a failed in-place assignment is atomic -/

/-- Concrete scenario of spec section 8: the leaf `x = [1,2,3,4]`. -/
def scnX : State × Nat := mkLeaf initState [1, 2, 3, 4] false true

/-- Scenario tensor `y = 2 * x`. -/
def scnY : State × Nat := applyOp scnX.1 (.mulC 2) [scnX.2]

/-- Scenario view `w = y[...]`. -/
def scnW : State × Nat := mkView scnY.1 scnY.2 [0, 1, 2, 3]

/-- Scenario: after the failed `y[:2] = y`, build `2 * w`. -/
def scnZ : State × Nat :=
  applyOp (tryInPlace scnW.1 scnY.2 [0, 1] (.tensor scnY.2)) (.mulC 2) [scnW.2]

/-- Scenario: backward through `2 * w`. -/
def scnFinal : State := backward scnZ.1 scnZ.2 none

/-- C1: an in-place assignment whose source cannot be broadcast against the
addressed region (the source length matches neither the region length nor the
broadcastable singleton length) raises the shape error and performs no
partial write: the state a caller observes after catching the error is
exactly the state before the call, so every tensor's data, every base link,
every memory-sharing relation and every existing gradient is unchanged, and
any later backward pass deposits exactly the gradients it would have
deposited had the assignment never been attempted. -/
theorem failed_setitem_is_atomic (s : State) (t ts : Nat) (sel : List Nat)
    (ht : t < s.tens.length) (hts : ts < s.tens.length)
    (hw : (s.guard && !(bufAt s (nodeAt s (nodeRootId s (tensAt s t).node)).buf).origW)
      = false)
    (hsel : (∀ j ∈ sel, j < (nodeAt s (tensAt s t).node).idx.length) ∧ sel.Nodup)
    (hlen : (dataOf s ts).length ≠ sel.length) (hone : (dataOf s ts).length ≠ 1) :
    setitem s t sel (.tensor ts) = .error .shapeError ∧
    tryInPlace s t sel (.tensor ts) = s ∧
    (∀ o, dataOf (tryInPlace s t sel (.tensor ts)) o = dataOf s o) ∧
    (∀ o, baseObjOf (tryInPlace s t sel (.tensor ts)) o = baseObjOf s o) ∧
    (∀ o1 o2, sharesMemory (tryInPlace s t sel (.tensor ts)) o1 o2 ↔ sharesMemory s o1 o2) ∧
    (∀ o, gradOf (tryInPlace s t sel (.tensor ts)) o = gradOf s o) ∧
    (∀ z sd o, gradOf (backward (tryInPlace s t sel (.tensor ts)) z sd) o =
      gradOf (backward s z sd) o) := by
  have herr : setitem s t sel (.tensor ts) = .error .shapeError := by
    unfold setitem
    simp only [if_pos ht, hw, Bool.false_eq_true, if_false, if_pos hsel, if_pos hts]
    rw [if_neg]
    intro h
    rcases h with h | h
    · exact hlen h
    · exact hone h
  have hsame : tryInPlace s t sel (.tensor ts) = s := by
    unfold tryInPlace
    rw [herr]
  refine ⟨herr, hsame, ?_, ?_, ?_, ?_, ?_⟩ <;> rw [hsame]
  · exact fun _ => rfl
  · exact fun _ => rfl
  · exact fun _ _ => Iff.rfl
  · exact fun _ => rfl
  · exact fun _ _ _ => rfl

/-- Witness for C1, instantiating the spec section 8 scenario: `y[:2] = y`
raises (region length 2 against source length 4), the state is untouched,
and the subsequent backward through `2 * w` deposits the gradients of the
uncorrupted graph. -/
theorem failed_setitem_is_atomic_witness :
    (scnY.2 < scnW.1.tens.length ∧ scnY.2 < scnW.1.tens.length ∧
      (scnW.1.guard &&
        !(bufAt scnW.1 (nodeAt scnW.1 (nodeRootId scnW.1 (tensAt scnW.1 scnY.2).node)).buf).origW)
        = false ∧
      ((∀ j ∈ [0, 1], j < (nodeAt scnW.1 (tensAt scnW.1 scnY.2).node).idx.length) ∧
        ([0, 1] : List Nat).Nodup) ∧
      (dataOf scnW.1 scnY.2).length ≠ ([0, 1] : List Nat).length ∧
      (dataOf scnW.1 scnY.2).length ≠ 1) ∧
    (setitem scnW.1 scnY.2 [0, 1] (.tensor scnY.2) = .error .shapeError ∧
      tryInPlace scnW.1 scnY.2 [0, 1] (.tensor scnY.2) = scnW.1) ∧
    (gradOf scnFinal scnW.2 = some [2, 2, 2, 2] ∧
      gradOf scnFinal scnY.2 = some [2, 2, 2, 2] ∧
      gradOf scnFinal scnX.2 = some [4, 4, 4, 4] ∧
      baseObjOf scnFinal scnW.2 = some scnY.2 ∧
      baseObjOf scnFinal scnY.2 = none ∧
      sharesMemory scnFinal scnW.2 scnY.2 ∧
      dataOf scnFinal scnW.2 = [2, 4, 6, 8]) := by
  refine ⟨by decide, ?_, by decide⟩
  have h := failed_setitem_is_atomic scnW.1 scnY.2 scnY.2 [0, 1]
    (by decide) (by decide) (by decide) (by decide) (by decide) (by decide)
  exact ⟨h.1, h.2.1⟩

/-! ### Access lemmas for appended state components -/

theorem lgetD_append_last {α : Type _} (l : List α) (a d : α) :
    (l ++ [a]).getD l.length d = a := by
  rw [List.getD_append_right _ _ _ _ (Nat.le_refl _), Nat.sub_self]
  rfl

theorem nodeAt_mkView_old (s : State) (t : Nat) (rel : List Nat) (i : Nat)
    (h : i < s.nodes.length) : nodeAt (mkView s t rel).1 i = nodeAt s i :=
  List.getD_append _ _ _ _ h

theorem nodeAt_mkView_new (s : State) (t : Nat) (rel : List Nat) :
    nodeAt (mkView s t rel).1 s.nodes.length = viewNodeOf s t rel :=
  lgetD_append_last _ _ _

theorem tensAt_mkView_old (s : State) (t : Nat) (rel : List Nat) (o : Nat)
    (h : o < s.tens.length) : tensAt (mkView s t rel).1 o = tensAt s o :=
  List.getD_append _ _ _ _ h

theorem tensAt_mkView_new (s : State) (t : Nat) (rel : List Nat) :
    tensAt (mkView s t rel).1 s.tens.length = viewTensOf s t :=
  lgetD_append_last _ _ _

theorem bufAt_mkView (s : State) (t : Nat) (rel : List Nat) (b : Nat) :
    bufAt (mkView s t rel).1 b = bufAt s b := rfl

/-! ### C4: view-producing operations flatten the base pointer -/

/-- Under the invariant, the flattened base link of any handle lands on a
handle that has no base itself: every family has a root. -/
theorem rootObj_isRoot (s : State) (hInv : StInv s) (o : Nat) (ho : o < s.tens.length) :
    baseObjOf s (rootObjId s o) = none := by
  have h := (hInv.2 o ho)
  unfold TensWF at h
  unfold rootObjId baseObjOf
  cases hb : (tensAt s o).baseObj with
  | none => simp [hb]
  | some b =>
      have hbb := h.2.2 b (by simp [hb])
      simp [hbb.2.1]

/-- Under the invariant, a handle with a base link is never its own family
root. -/
theorem base_ne_self (s : State) (hInv : StInv s) (o b : Nat) (ho : o < s.tens.length)
    (hb : (tensAt s o).baseObj = some b) : b ≠ o := by
  intro he
  have h := (hInv.2 o ho).2.2 b (by simp [hb])
  rw [he] at h
  rw [h.2.1] at hb
  exact Option.noConfusion hb

/-- A handle with no base link is exactly the root of its own family. -/
theorem baseObj_none_iff_root (s : State) (hInv : StInv s) (o : Nat)
    (ho : o < s.tens.length) : baseObjOf s o = none ↔ rootObjId s o = o := by
  constructor
  · intro h
    unfold rootObjId
    unfold baseObjOf at h
    rw [h]
    rfl
  · intro h
    cases hb : (tensAt s o).baseObj with
    | none => exact hb
    | some b =>
        exfalso
        apply base_ne_self s hInv o b ho hb
        unfold rootObjId at h
        rw [hb] at h
        simpa using h

/-- Recording a view preserves the engine invariant. -/
theorem mkView_preserves_inv (s : State) (t : Nat) (rel : List Nat)
    (hInv : StInv s) (ht : t < s.tens.length)
    (hrel : ∀ j ∈ rel, j < (nodeAt s (tensAt s t).node).idx.length)
    (hnd : rel.Nodup) : StInv (mkView s t rel).1 := by
  obtain ⟨hN, hT⟩ := hInv
  have htw := hT t ht
  unfold TensWF at htw
  have htn : (tensAt s t).node < s.nodes.length := htw.1
  have hnw := hN _ htn
  unfold NodeWF at hnw
  have hlen2 : (mkView s t rel).1.nodes.length = s.nodes.length + 1 := by
    simp [mkView]
  have hlent : (mkView s t rel).1.tens.length = s.tens.length + 1 := by
    simp [mkView]
  have hroot_lt : rootObjId s t < s.tens.length := by
    unfold rootObjId
    cases hbo : (tensAt s t).baseObj with
    | none => simpa using ht
    | some b0 => simpa using (htw.2.2 b0 (by simp [hbo])).1
  constructor
  · intro i hi
    rw [hlen2] at hi
    rcases Nat.lt_succ_iff_lt_or_eq.mp hi with hi | hi
    · have h0 := hN i hi
      unfold NodeWF at h0 ⊢
      rw [nodeAt_mkView_old s t rel i hi]
      refine ⟨h0.1, h0.2.1, h0.2.2.1, h0.2.2.2.1, ?_, h0.2.2.2.2.2.1, ?_⟩
      · intro r hr
        have he := h0.2.2.2.2.1 r hr
        refine ⟨he.1, ?_, ?_⟩
        · rw [nodeAt_mkView_old s t rel r (Nat.lt_trans he.1 hi)]
          exact he.2.1
        · rw [nodeAt_mkView_old s t rel r (Nat.lt_trans he.1 hi)]
          exact he.2.2
      · intro r hr
        have he := h0.2.2.2.2.1 r hr
        rw [nodeAt_mkView_old s t rel r (Nat.lt_trans he.1 hi)]
        exact h0.2.2.2.2.2.2 r hr
    · subst hi
      unfold NodeWF
      rw [nodeAt_mkView_new]
      refine ⟨hnw.1, ?_, ?_, ?_, ?_, ?_, ?_⟩
      · intro p hp
        simp only [viewNodeOf, List.mem_map] at hp
        rcases hp with ⟨j, hj, rfl⟩
        have hjl := hrel j hj
        rw [List.getD_eq_getElem _ _ hjl]
        exact hnw.2.1 _ (List.getElem_mem hjl)
      · simp only [viewNodeOf]
        refine List.Nodup.map_on ?_ hnd
        intro x hx y hy hxy
        rw [List.getD_eq_getElem _ _ (hrel x hx), List.getD_eq_getElem _ _ (hrel y hy)] at hxy
        exact (List.Nodup.getElem_inj_iff hnw.2.2.1).mp hxy
      · intro h
        simp [viewNodeOf] at h
      · intro r hr
        simp only [viewNodeOf, Option.toList_some, List.mem_singleton] at hr
        subst hr
        cases hb : (nodeAt s (tensAt s t).node).baseNode with
        | none =>
            have hroot : nodeRootId s (tensAt s t).node = (tensAt s t).node := by
              unfold nodeRootId; rw [hb]; rfl
            rw [hroot]
            refine ⟨htn, ?_, ?_⟩
            · rw [nodeAt_mkView_old s t rel _ htn]
              exact hb
            · rw [nodeAt_mkView_old s t rel _ htn]
              simp [viewNodeOf]
        | some r0 =>
            have he := hnw.2.2.2.2.1 r0 (by simp [hb])
            have hroot : nodeRootId s (tensAt s t).node = r0 := by
              unfold nodeRootId; rw [hb]; rfl
            rw [hroot]
            refine ⟨Nat.lt_trans he.1 htn, ?_, ?_⟩
            · rw [nodeAt_mkView_old s t rel r0 (Nat.lt_trans he.1 htn)]
              exact he.2.1
            · rw [nodeAt_mkView_old s t rel r0 (Nat.lt_trans he.1 htn)]
              simp [viewNodeOf, he.2.2]
      · intro pr hpr
        simp only [viewNodeOf, Option.toList_some, List.mem_singleton] at hpr
        subst hpr
        intro k hk
        simp only [List.mem_singleton] at hk
        subst hk
        exact htn
      · intro r hr
        simp only [viewNodeOf, Option.toList_some, List.mem_singleton] at hr
        subst hr
        cases hb : (nodeAt s (tensAt s t).node).baseNode with
        | none =>
            have hroot : nodeRootId s (tensAt s t).node = (tensAt s t).node := by
              unfold nodeRootId; rw [hb]; rfl
            rw [hroot, nodeAt_mkView_old s t rel _ htn]
            rfl
        | some r0 =>
            have he := hnw.2.2.2.2.1 r0 (by simp [hb])
            have hroot : nodeRootId s (tensAt s t).node = r0 := by
              unfold nodeRootId; rw [hb]; rfl
            rw [hroot, nodeAt_mkView_old s t rel r0 (Nat.lt_trans he.1 htn)]
            have hc := hnw.2.2.2.2.2.2 r0 (by simp [hb])
            simpa [viewNodeOf] using hc
  · intro o ho
    rw [hlent] at ho
    rcases Nat.lt_succ_iff_lt_or_eq.mp ho with ho | ho
    · have h0 := hT o ho
      unfold TensWF at h0 ⊢
      rw [tensAt_mkView_old s t rel o ho]
      refine ⟨?_, ?_, ?_⟩
      · rw [hlen2]
        exact Nat.lt_succ_of_lt h0.1
      · intro hbo
        rw [nodeAt_mkView_old s t rel _ h0.1]
        exact h0.2.1 hbo
      · intro b hb
        have hbb := h0.2.2 b hb
        refine ⟨?_, ?_, ?_⟩
        · rw [hlent]
          exact Nat.lt_succ_of_lt hbb.1
        · rw [tensAt_mkView_old s t rel b hbb.1]
          exact hbb.2.1
        · have h2 := hbb.2.2
          unfold nodeRootId at h2 ⊢
          rw [nodeAt_mkView_old s t rel _ h0.1, tensAt_mkView_old s t rel b hbb.1]
          exact h2
    · subst ho
      unfold TensWF
      rw [tensAt_mkView_new]
      refine ⟨?_, ?_, ?_⟩
      · show s.nodes.length < _
        rw [hlen2]
        exact Nat.lt_succ_self _
      · intro h
        simp [viewTensOf] at h
      · intro b hb
        simp only [viewTensOf, Option.toList_some, List.mem_singleton] at hb
        subst hb
        refine ⟨?_, ?_, ?_⟩
        · rw [hlent]
          exact Nat.lt_succ_of_lt hroot_lt
        · rw [tensAt_mkView_old s t rel _ hroot_lt]
          exact rootObj_isRoot s ⟨hN, hT⟩ t ht
        · show nodeRootId (mkView s t rel).1 s.nodes.length = _
          unfold nodeRootId
          rw [nodeAt_mkView_new, tensAt_mkView_old s t rel _ hroot_lt]
          simp only [viewNodeOf, Option.getD_some]
          cases hbo : (tensAt s t).baseObj with
          | none =>
              have h2 := htw.2.1 hbo
              unfold nodeRootId
              rw [h2]
              unfold rootObjId
              rw [hbo]
              rfl
          | some b0 =>
              have h2 := (htw.2.2 b0 (by simp [hbo])).2.2
              unfold rootObjId
              rw [hbo]
              unfold nodeRootId at h2
              simpa using h2

/-- C4: a view-producing operation applied to `x` returns a tensor that
shares memory with `x` and whose base pointer is flattened to the ultimate
root: the result's base is `x` itself when `x` is a root and `x.base`
otherwise.  The construction preserves the engine invariant, under which
every view family has exactly one member whose base is `none` — the handle
every member's flattened base link resolves to. -/
theorem view_base_flattening (s : State) (t : Nat) (rel : List Nat)
    (hInv : StInv s) (ht : t < s.tens.length)
    (hrel : ∀ j ∈ rel, j < (nodeAt s (tensAt s t).node).idx.length)
    (hnd : rel.Nodup) :
    (baseObjOf s t = none → baseObjOf (mkView s t rel).1 (mkView s t rel).2 = some t) ∧
    (∀ b, baseObjOf s t = some b →
      baseObjOf (mkView s t rel).1 (mkView s t rel).2 = some b) ∧
    (rel ≠ [] → sharesMemory (mkView s t rel).1 (mkView s t rel).2 t) ∧
    StInv (mkView s t rel).1 ∧
    (∀ o, o < (mkView s t rel).1.tens.length →
      baseObjOf (mkView s t rel).1 (rootObjId (mkView s t rel).1 o) = none ∧
      (baseObjOf (mkView s t rel).1 o = none ↔ rootObjId (mkView s t rel).1 o = o)) := by
  have htn : (tensAt s t).node < s.nodes.length := (hInv.2 t ht).1
  have hb1 : baseObjOf (mkView s t rel).1 (mkView s t rel).2 = some (rootObjId s t) := by
    show (tensAt (mkView s t rel).1 s.tens.length).baseObj = _
    rw [tensAt_mkView_new]
    rfl
  have hInv2 := mkView_preserves_inv s t rel hInv ht hrel hnd
  refine ⟨?_, ?_, ?_, hInv2, ?_⟩
  · intro h
    rw [hb1]
    unfold rootObjId
    unfold baseObjOf at h
    rw [h]
    rfl
  · intro b h
    rw [hb1]
    unfold rootObjId
    unfold baseObjOf at h
    rw [h]
    rfl
  · intro hne
    obtain ⟨j, hj⟩ := List.exists_mem_of_ne_nil rel hne
    have hjl := hrel j hj
    unfold sharesMemory bufOfObj
    rw [show (mkView s t rel).2 = s.tens.length from rfl, tensAt_mkView_new,
      tensAt_mkView_old s t rel t ht]
    rw [show (viewTensOf s t).node = s.nodes.length from rfl, nodeAt_mkView_new,
      nodeAt_mkView_old s t rel _ htn]
    refine ⟨rfl, (nodeAt s (tensAt s t).node).idx.getD j 0, ?_, ?_⟩
    · simp only [viewNodeOf]
      exact List.mem_map.mpr ⟨j, hj, rfl⟩
    · rw [List.getD_eq_getElem _ _ hjl]
      exact List.getElem_mem hjl
  · intro o ho
    exact ⟨rootObj_isRoot (mkView s t rel).1 hInv2 o ho,
      baseObj_none_iff_root (mkView s t rel).1 hInv2 o ho⟩

/-- Witness for C4 at the concrete scenario: the view `w = y[...]` of the
root `y` has base `y`, shares memory with it, and the invariant carries
through. -/
theorem view_base_flattening_witness :
    (StInv scnY.1 ∧ scnY.2 < scnY.1.tens.length ∧
      (∀ j ∈ [0, 1, 2, 3], j < (nodeAt scnY.1 (tensAt scnY.1 scnY.2).node).idx.length) ∧
      ([0, 1, 2, 3] : List Nat).Nodup ∧ baseObjOf scnY.1 scnY.2 = none ∧
      ([0, 1, 2, 3] : List Nat) ≠ []) ∧
    (baseObjOf (mkView scnY.1 scnY.2 [0, 1, 2, 3]).1 (mkView scnY.1 scnY.2 [0, 1, 2, 3]).2 =
        some scnY.2 ∧
      sharesMemory (mkView scnY.1 scnY.2 [0, 1, 2, 3]).1
        (mkView scnY.1 scnY.2 [0, 1, 2, 3]).2 scnY.2 ∧
      StInv (mkView scnY.1 scnY.2 [0, 1, 2, 3]).1) := by
  refine ⟨by decide, ?_, ?_, ?_⟩
  · exact (view_base_flattening scnY.1 scnY.2 [0, 1, 2, 3] (by decide) (by decide)
      (by decide) (by decide)).1 (by decide)
  · exact (view_base_flattening scnY.1 scnY.2 [0, 1, 2, 3] (by decide) (by decide)
      (by decide) (by decide)).2.2.1 (by decide)
  · exact (view_base_flattening scnY.1 scnY.2 [0, 1, 2, 3] (by decide) (by decide)
      (by decide) (by decide)).2.2.2.1

/-! ### Access lemmas for the mutated state -/

theorem lgetD_set_self {α : Type _} (l : List α) (i : Nat) (a d : α) (h : i < l.length) :
    (l.set i a).getD i d = a := by
  rw [List.getD_eq_getElem _ _ (by simpa using h)]
  simp [List.getElem_set_self]

theorem lgetD_set_ne {α : Type _} (l : List α) (i j : Nat) (a d : α) (h : i ≠ j) :
    (l.set i a).getD j d = l.getD j d := by
  rcases Nat.lt_or_ge j l.length with hj | hj
  · rw [List.getD_eq_getElem _ _ (by simpa using hj), List.getD_eq_getElem _ _ hj]
    exact List.getElem_set_of_ne h a _
  · rw [List.getD_eq_default _ _ (by simpa using hj), List.getD_eq_default _ _ hj]

theorem lgetD_range_map {α : Type _} (n : Nat) (f : Nat → α) (i : Nat) (d : α)
    (h : i < n) : ((List.range n).map f).getD i d = f i := by
  rw [List.getD_eq_getElem _ _ (by simpa using h)]
  simp

/-- Taking a memory-guard lock changes neither payload nor declared flag. -/
theorem bumpLock_getD (bufs : List Buf) (b0 b : Nat) (d : Buf) :
    ((bumpLock bufs b0).getD b d).data = (bufs.getD b d).data ∧
    ((bumpLock bufs b0).getD b d).origW = (bufs.getD b d).origW := by
  unfold bumpLock
  cases hg : bufs.get? b0 with
  | none => exact ⟨rfl, rfl⟩
  | some r =>
      by_cases hb : b0 = b
      · subst hb
        have hlt : b0 < bufs.length := by
          by_contra hge
          rw [List.get?_eq_none.mpr (Nat.le_of_not_lt hge)] at hg
          exact Option.noConfusion hg
        have hgd : bufs.getD b0 d = r := by
          rw [List.getD_eq_getD_get?, hg]
          rfl
        rw [lgetD_set_self _ _ _ _ hlt, hgd]
        exact ⟨rfl, rfl⟩
      · rw [lgetD_set_ne _ _ _ _ _ hb]
        exact ⟨rfl, rfl⟩

theorem bumpLock_length (bufs : List Buf) (b0 : Nat) :
    (bumpLock bufs b0).length = bufs.length := by
  unfold bumpLock
  cases bufs.get? b0 <;> simp

theorem bumpLocks_getD (bs : List Nat) (bufs : List Buf) (b : Nat) (d : Buf) :
    ((bumpLocks bufs bs).getD b d).data = (bufs.getD b d).data ∧
    ((bumpLocks bufs bs).getD b d).origW = (bufs.getD b d).origW := by
  induction bs generalizing bufs with
  | nil => exact ⟨rfl, rfl⟩
  | cons b0 bs ih =>
      have h1 := bumpLock_getD bufs b0 b d
      have h2 := ih (bumpLock bufs b0)
      exact ⟨h2.1.trans h1.1, h2.2.trans h1.2⟩

theorem bumpLocks_length (bs : List Nat) (bufs : List Buf) :
    (bumpLocks bufs bs).length = bufs.length := by
  induction bs generalizing bufs with
  | nil => rfl
  | cons b0 bs ih => exact (ih (bumpLock bufs b0)).trans (bumpLock_length bufs b0)

theorem famOf_mem (s : State) (r o : Nat) :
    o ∈ famOf s r ↔ o < s.tens.length ∧ rootObjId s o = r ∧ o ≠ r := by
  unfold famOf
  simp only [List.mem_filter, List.mem_range, Bool.and_eq_true, beq_iff_eq, ne_eq,
    bne_iff_ne]

theorem doWrite_guard (s : State) (t : Nat) (sel : List Nat) (vals : List Int)
    (sn : Option Nat) (sc : Bool) : (doWrite s t sel vals sn sc).guard = s.guard := rfl

theorem doWrite_nodes_old (s : State) (t : Nat) (sel : List Nat) (vals : List Int)
    (sn : Option Nat) (sc : Bool) (i : Nat) (h : i < s.nodes.length) :
    nodeAt (doWrite s t sel vals sn sc) i = nodeAt s i := by
  show ((s.nodes ++ [mutantNodeOf s t sel vals sn sc] ++ _).getD i _) = _
  rw [List.getD_append _ _ _ _ (by
    rw [List.length_append]
    exact Nat.lt_of_lt_of_le h (Nat.le_add_right _ _))]
  exact List.getD_append _ _ _ _ h

theorem doWrite_nodes_mutant (s : State) (t : Nat) (sel : List Nat) (vals : List Int)
    (sn : Option Nat) (sc : Bool) :
    nodeAt (doWrite s t sel vals sn sc) s.nodes.length = mutantNodeOf s t sel vals sn sc := by
  show ((s.nodes ++ [mutantNodeOf s t sel vals sn sc] ++ _).getD s.nodes.length _) = _
  rw [List.getD_append _ _ _ _ (by simp)]
  exact lgetD_append_last _ _ _

theorem doWrite_nodes_fam (s : State) (t : Nat) (sel : List Nat) (vals : List Int)
    (sn : Option Nat) (sc : Bool) (o : Nat) (h : o ∈ famOf s (rootObjId s t)) :
    nodeAt (doWrite s t sel vals sn sc)
        (s.nodes.length + 1 + (famOf s (rootObjId s t)).indexOf o) =
      famViewNodeOf s o (mutantNodeOf s t sel vals sn sc).constant := by
  have hidx : (famOf s (rootObjId s t)).indexOf o < (famOf s (rootObjId s t)).length :=
    List.indexOf_lt_length.mpr h
  show ((s.nodes ++ [mutantNodeOf s t sel vals sn sc] ++
      (famOf s (rootObjId s t)).map (fun o =>
        famViewNodeOf s o (mutantNodeOf s t sel vals sn sc).constant)).getD _ _) = _
  rw [List.getD_append_right _ _ _ _ (by
    rw [List.length_append]
    simp only [List.length_singleton]
    omega)]
  have harith : s.nodes.length + 1 + (famOf s (rootObjId s t)).indexOf o -
      (s.nodes ++ [mutantNodeOf s t sel vals sn sc]).length =
      (famOf s (rootObjId s t)).indexOf o := by
    rw [List.length_append]
    simp only [List.length_singleton]
    omega
  rw [harith, List.getD_eq_getElem _ _ (by simpa using hidx)]
  rw [List.getElem_map]
  congr 1
  exact List.getElem_indexOf hidx

theorem doWrite_tens_outside (s : State) (t : Nat) (sel : List Nat) (vals : List Int)
    (sn : Option Nat) (sc : Bool) (o : Nat) (ho : o < s.tens.length)
    (h1 : o ≠ rootObjId s t) (h2 : rootObjId s o ≠ rootObjId s t) :
    tensAt (doWrite s t sel vals sn sc) o = tensAt s o := by
  show ((List.range s.tens.length).map _).getD o _ = _
  rw [lgetD_range_map _ _ _ _ ho]
  rw [if_neg h1, if_neg (fun hm => h2 ((famOf_mem s _ o).mp hm).2.1)]

theorem doWrite_tens_root (s : State) (t : Nat) (sel : List Nat) (vals : List Int)
    (sn : Option Nat) (sc : Bool) (h : rootObjId s t < s.tens.length) :
    tensAt (doWrite s t sel vals sn sc) (rootObjId s t) = ⟨s.nodes.length, none⟩ := by
  show ((List.range s.tens.length).map _).getD _ _ = _
  rw [lgetD_range_map _ _ _ _ h]
  rw [if_pos rfl]

theorem doWrite_tens_fam (s : State) (t : Nat) (sel : List Nat) (vals : List Int)
    (sn : Option Nat) (sc : Bool) (o : Nat) (h : o ∈ famOf s (rootObjId s t)) :
    tensAt (doWrite s t sel vals sn sc) o =
      ⟨s.nodes.length + 1 + (famOf s (rootObjId s t)).indexOf o, some (rootObjId s t)⟩ := by
  have hmem := (famOf_mem s _ o).mp h
  show ((List.range s.tens.length).map _).getD o _ = _
  rw [lgetD_range_map _ _ _ _ hmem.1]
  rw [if_neg hmem.2.2, if_pos h]

theorem doWrite_bufs_old (s : State) (t : Nat) (sel : List Nat) (vals : List Int)
    (sn : Option Nat) (sc : Bool) (b : Nat) (h : b < s.bufs.length) :
    (bufAt (doWrite s t sel vals sn sc) b).data = (bufAt s b).data ∧
    (bufAt (doWrite s t sel vals sn sc) b).origW = (bufAt s b).origW := by
  show ((bumpLocks (s.bufs ++ [_]) _).getD b _).data = _ ∧
    ((bumpLocks (s.bufs ++ [_]) _).getD b _).origW = _
  have h1 := bumpLocks_getD (mutantNodeOf s t sel vals sn sc).locked
    (s.bufs ++ [⟨doWriteData s t sel vals, true, 0⟩]) b ⟨[], true, 0⟩
  rw [h1.1, h1.2, List.getD_append _ _ _ _ h]
  exact ⟨rfl, rfl⟩

theorem doWrite_bufs_new (s : State) (t : Nat) (sel : List Nat) (vals : List Int)
    (sn : Option Nat) (sc : Bool) :
    (bufAt (doWrite s t sel vals sn sc) s.bufs.length).data = doWriteData s t sel vals := by
  show ((bumpLocks (s.bufs ++ [_]) _).getD s.bufs.length _).data = _
  have h1 := bumpLocks_getD (mutantNodeOf s t sel vals sn sc).locked
    (s.bufs ++ [⟨doWriteData s t sel vals, true, 0⟩]) s.bufs.length ⟨[], true, 0⟩
  rw [h1.1, lgetD_append_last]

/-- A successful `setitem` is exactly a `doWrite` with the broadcast source. -/
theorem setitem_ok_eq (s : State) (t : Nat) (sel : List Nat) (src : Src) (s2 : State)
    (hok : setitem s t sel src = .ok s2) :
    s2 = doWrite s t sel (srcVals s sel src) (srcNodeOf s src) (srcConstB s src) := by
  cases src with
  | scalar c =>
      unfold setitem at hok
      split at hok
      · split at hok
        · exact Except.noConfusion hok
        · split at hok
          · cases hok
            rfl
          · exact Except.noConfusion hok
      · exact Except.noConfusion hok
  | tensor ts =>
      unfold setitem at hok
      split at hok
      · split at hok
        · exact Except.noConfusion hok
        · split at hok
          · split at hok
            · rename_i a heq
              exact Src.noConfusion heq
            · rename_i a heq
              injection heq with h
              subst h
              split at hok
              · split at hok
                · cases hok
                  rfl
                · exact Except.noConfusion hok
              · exact Except.noConfusion hok
          · exact Except.noConfusion hok
      · exact Except.noConfusion hok

/-! ### Coherence lemmas under the invariant -/

theorem rootObj_lt (s : State) (hInv : StInv s) (o : Nat) (ho : o < s.tens.length) :
    rootObjId s o < s.tens.length := by
  unfold rootObjId
  cases hb : (tensAt s o).baseObj with
  | none => simpa using ho
  | some b => simpa using ((hInv.2 o ho).2.2 b (by simp [hb])).1

/-- The node-level root of a handle's node is the node of its handle-level
root. -/
theorem nodeRoot_coherent (s : State) (hInv : StInv s) (o : Nat) (ho : o < s.tens.length) :
    nodeRootId s (tensAt s o).node = (tensAt s (rootObjId s o)).node := by
  have h := hInv.2 o ho
  unfold TensWF at h
  cases hb : (tensAt s o).baseObj with
  | none =>
      have h2 := h.2.1 hb
      unfold nodeRootId rootObjId
      rw [h2, hb]
      rfl
  | some b =>
      have h2 := (h.2.2 b (by simp [hb])).2.2
      unfold rootObjId
      rw [hb]
      simpa using h2

/-- A handle's storage is the storage of its family's root node. -/
theorem buf_coherent (s : State) (hInv : StInv s) (o : Nat) (ho : o < s.tens.length) :
    (nodeAt s (nodeRootId s (tensAt s o).node)).buf = bufOfObj s o := by
  have hn := hInv.1 (tensAt s o).node (hInv.2 o ho).1
  unfold NodeWF at hn
  unfold bufOfObj
  cases hb : (nodeAt s (tensAt s o).node).baseNode with
  | none =>
      unfold nodeRootId
      rw [hb]
      rfl
  | some r =>
      have h2 := hn.2.2.2.2.1 r (by simp [hb])
      unfold nodeRootId
      rw [hb]
      simpa using h2.2.2

/-- A handle's constant flag is the flag of its family's root node. -/
theorem const_coherent (s : State) (hInv : StInv s) (o : Nat) (ho : o < s.tens.length) :
    (nodeAt s (nodeRootId s (tensAt s o).node)).constant = constOf s o := by
  have hn := hInv.1 (tensAt s o).node (hInv.2 o ho).1
  unfold NodeWF at hn
  unfold constOf
  cases hb : (nodeAt s (tensAt s o).node).baseNode with
  | none =>
      unfold nodeRootId
      rw [hb]
      rfl
  | some r =>
      have h2 := hn.2.2.2.2.2.2 r (by simp [hb])
      unfold nodeRootId
      rw [hb]
      simpa using h2.symm

theorem writeAt_length (ps : List Nat) (d : List Int) (vs : List Int) :
    (writeAt d ps vs).length = d.length := by
  induction ps generalizing d vs with
  | nil => cases vs <;> rfl
  | cons p ps ih =>
      cases vs with
      | nil => rfl
      | cons v vs =>
          show (writeAt (d.set p v) ps vs).length = _
          rw [ih]
          exact List.length_set d p v

theorem dataOf_eq (s : State) (o : Nat) :
    dataOf s o = gatherIdx (bufAt s (nodeAt s (tensAt s o).node).buf).data
      (nodeAt s (tensAt s o).node).idx := rfl

theorem rootObj_idem (s : State) (hInv : StInv s) (o : Nat) (ho : o < s.tens.length) :
    rootObjId s (rootObjId s o) = rootObjId s o := by
  have h := rootObj_isRoot s hInv o ho
  unfold baseObjOf at h
  show (tensAt s (rootObjId s o)).baseObj.getD (rootObjId s o) = rootObjId s o
  rw [h]
  rfl

/-- Every member of the written family reads the written storage through its
own index map. -/
theorem doWrite_family_reads (s : State) (hInv : StInv s) (t : Nat) (sel : List Nat)
    (vals : List Int) (sn : Option Nat) (sc : Bool) (ht : t < s.tens.length) :
    ∀ o, o < s.tens.length → rootObjId s o = rootObjId s t →
      dataOf (doWrite s t sel vals sn sc) o =
        gatherIdx (doWriteData s t sel vals) (nodeAt s (tensAt s o).node).idx := by
  intro o ho hro
  by_cases hor : o = rootObjId s t
  · subst hor
    have hrlt : rootObjId s t < s.tens.length := rootObj_lt s hInv t ht
    have h1 := doWrite_tens_root s t sel vals sn sc hrlt
    have h2 := doWrite_nodes_mutant s t sel vals sn sc
    rw [dataOf_eq, h1]
    show gatherIdx
      (bufAt _ (nodeAt (doWrite s t sel vals sn sc) s.nodes.length).buf).data
      (nodeAt (doWrite s t sel vals sn sc) s.nodes.length).idx = _
    rw [h2]
    show gatherIdx
      (bufAt (doWrite s t sel vals sn sc) s.bufs.length).data
      (List.range (doWriteData s t sel vals).length) = _
    rw [doWrite_bufs_new, gatherIdx_range]
    have hrn : nodeRootId s (tensAt s t).node = (tensAt s (rootObjId s t)).node :=
      nodeRoot_coherent s hInv t ht
    have hrnode : (tensAt s (rootObjId s t)).node < s.nodes.length := (hInv.2 _ hrlt).1
    have hrootbase : (nodeAt s (tensAt s (rootObjId s t)).node).baseNode = none :=
      (hInv.2 _ hrlt).2.1 (rootObj_isRoot s hInv t ht)
    have hidx : (nodeAt s (tensAt s (rootObjId s t)).node).idx =
        List.range (bufAt s (nodeAt s (tensAt s (rootObjId s t)).node).buf).data.length :=
      (hInv.1 _ hrnode).2.2.2.1 hrootbase
    have hlen : (doWriteData s t sel vals).length =
        (bufAt s (nodeAt s (tensAt s (rootObjId s t)).node).buf).data.length := by
      unfold doWriteData
      rw [writeAt_length, hrn]
    rw [hidx, ← hlen, gatherIdx_range_len _ rfl]
  · have hfam : o ∈ famOf s (rootObjId s t) := (famOf_mem _ _ _).mpr ⟨ho, hro, hor⟩
    have h1 := doWrite_tens_fam s t sel vals sn sc o hfam
    have h2 := doWrite_nodes_fam s t sel vals sn sc o hfam
    rw [dataOf_eq, h1]
    show gatherIdx
      (bufAt _ (nodeAt (doWrite s t sel vals sn sc) (s.nodes.length + 1 +
        (famOf s (rootObjId s t)).indexOf o)).buf).data
      (nodeAt (doWrite s t sel vals sn sc) (s.nodes.length + 1 +
        (famOf s (rootObjId s t)).indexOf o)).idx = _
    rw [h2]
    show gatherIdx
      (bufAt (doWrite s t sel vals sn sc) s.bufs.length).data
      (nodeAt s (tensAt s o).node).idx = _
    rw [doWrite_bufs_new]

/-- A tensor outside the written family keeps its handle and its data. -/
theorem doWrite_outside_reads (s : State) (hInv : StInv s) (t : Nat) (sel : List Nat)
    (vals : List Int) (sn : Option Nat) (sc : Bool) (ht : t < s.tens.length) :
    ∀ o, o < s.tens.length → rootObjId s o ≠ rootObjId s t →
      dataOf (doWrite s t sel vals sn sc) o = dataOf s o ∧
      tensAt (doWrite s t sel vals sn sc) o = tensAt s o := by
  intro o ho hro
  have hor : o ≠ rootObjId s t := by
    intro he
    apply hro
    rw [he]
    exact rootObj_idem s hInv t ht
  have h1 := doWrite_tens_outside s t sel vals sn sc o ho hor hro
  refine ⟨?_, h1⟩
  rw [dataOf_eq, dataOf_eq, h1]
  have hn1 : (tensAt s o).node < s.nodes.length := (hInv.2 o ho).1
  rw [doWrite_nodes_old s t sel vals sn sc _ hn1]
  have hbuf : (nodeAt s (tensAt s o).node).buf < s.bufs.length := (hInv.1 _ hn1).1
  rw [(doWrite_bufs_old s t sel vals sn sc _ hbuf).1]

/-- C5: for every handle with a base, its data and its base's data live in
the same underlying storage; a successful in-place assignment through any
member of a view family makes every member of the family read the written
storage through its own storage correspondence, while every tensor outside
the family reads exactly what it read before. -/
theorem inplace_view_family_storage (s : State) (hInv : StInv s) (t : Nat)
    (sel : List Nat) (src : Src) (s2 : State) (ht : t < s.tens.length)
    (hok : setitem s t sel src = .ok s2) :
    (∀ o, o < s.tens.length → ∀ b ∈ (baseObjOf s o).toList, bufOfObj s o = bufOfObj s b) ∧
    (∀ o, o < s.tens.length → rootObjId s o = rootObjId s t →
      dataOf s2 o = gatherIdx (doWriteData s t sel (srcVals s sel src))
        (nodeAt s (tensAt s o).node).idx) ∧
    (∀ o, o < s.tens.length → rootObjId s o ≠ rootObjId s t →
      dataOf s2 o = dataOf s o ∧ tensAt s2 o = tensAt s o) := by
  have hs2 := setitem_ok_eq s t sel src s2 hok
  subst hs2
  refine ⟨?_, ?_, ?_⟩
  · intro o ho b hb
    rcases hx : (tensAt s o).baseObj with _ | b2
    · unfold baseObjOf at hb
      rw [hx] at hb
      exact absurd hb (by simp)
    · unfold baseObjOf at hb
      rw [hx] at hb
      simp only [Option.toList_some, List.mem_singleton] at hb
      subst hb
      have hro : rootObjId s o = b := by
        unfold rootObjId
        rw [hx]
        rfl
      have hc := buf_coherent s hInv o ho
      have hn := nodeRoot_coherent s hInv o ho
      rw [← hc, hn, hro]
      rfl
  · exact doWrite_family_reads s hInv t sel (srcVals s sel src) (srcNodeOf s src)
      (srcConstB s src) ht
  · exact doWrite_outside_reads s hInv t sel (srcVals s sel src) (srcNodeOf s src)
      (srcConstB s src) ht

instance {a b : Type} [DecidableEq a] [DecidableEq b] : DecidableEq (Except a b) := fun x y =>
  match x, y with
  | .ok u, .ok v => decidable_of_iff (u = v) (by simp)
  | .error u, .error v => decidable_of_iff (u = v) (by simp)
  | .ok _, .error _ => isFalse (by simp)
  | .error _, .ok _ => isFalse (by simp)

/-- Scenario for C5: root `+x`, a view and a view of the view, then an
in-place write through the first view. -/
def vfX : State × Nat := mkLeaf initState [1, 2, 3, 4] false true

def vfY : State × Nat := applyOp vfX.1 .plus [vfX.2]

def vfV1 : State × Nat := mkView vfY.1 vfY.2 [0, 1, 2, 3]

def vfV2 : State × Nat := mkView vfV1.1 vfV1.2 [0, 1, 2, 3]

def vfAfter : State := tryInPlace vfV2.1 vfV1.2 [0, 1] (.scalar (-1))

/-- Witness for C5: writing `y[:2] = -1` through the middle view mutates
what the root, the view and the view-of-view read, leaves `x` alone, and all
members share the root's storage. -/
theorem inplace_view_family_storage_witness :
    (StInv vfV2.1 ∧ vfV1.2 < vfV2.1.tens.length ∧
      setitem vfV2.1 vfV1.2 [0, 1] (.scalar (-1)) = .ok vfAfter) ∧
    ((∀ o, o < vfV2.1.tens.length → ∀ b ∈ (baseObjOf vfV2.1 o).toList,
        bufOfObj vfV2.1 o = bufOfObj vfV2.1 b) ∧
      (∀ o, o < vfV2.1.tens.length → rootObjId vfV2.1 o = rootObjId vfV2.1 vfV1.2 →
        dataOf vfAfter o =
          gatherIdx (doWriteData vfV2.1 vfV1.2 [0, 1] (srcVals vfV2.1 [0, 1] (.scalar (-1))))
            (nodeAt vfV2.1 (tensAt vfV2.1 o).node).idx) ∧
      (∀ o, o < vfV2.1.tens.length → rootObjId vfV2.1 o ≠ rootObjId vfV2.1 vfV1.2 →
        dataOf vfAfter o = dataOf vfV2.1 o ∧ tensAt vfAfter o = tensAt vfV2.1 o)) ∧
    (dataOf vfAfter vfV2.2 = [-1, -1, 3, 4] ∧ dataOf vfAfter vfY.2 = [-1, -1, 3, 4] ∧
      dataOf vfAfter vfV1.2 = [-1, -1, 3, 4] ∧ dataOf vfAfter vfX.2 = [1, 2, 3, 4]) := by
  refine ⟨by decide, ?_, by decide⟩
  exact inplace_view_family_storage vfV2.1 (by decide) vfV1.2 [0, 1] (.scalar (-1))
    vfAfter (by decide) (by decide)

/-- C6: an in-place assignment into `x` updates the constant flag of `x`'s
whole view family — every pre-existing view included — to the conjunction of
`x`'s flag and the source's flag (a broadcast scalar counting as constant). -/
theorem inplace_constant_propagation (s : State) (hInv : StInv s) (t : Nat)
    (sel : List Nat) (src : Src) (s2 : State) (ht : t < s.tens.length)
    (hok : setitem s t sel src = .ok s2) :
    ∀ o, o < s.tens.length → rootObjId s o = rootObjId s t →
      constOf s2 o = (constOf s t && srcConstB s src) := by
  have hs2 := setitem_ok_eq s t sel src s2 hok
  subst hs2
  intro o ho hro
  have hct : (nodeAt s (nodeRootId s (tensAt s t).node)).constant = constOf s t :=
    const_coherent s hInv t ht
  by_cases hor : o = rootObjId s t
  · subst hor
    have hrlt := rootObj_lt s hInv t ht
    have h1 := doWrite_tens_root s t sel (srcVals s sel src) (srcNodeOf s src)
      (srcConstB s src) hrlt
    show (nodeAt _ (tensAt (doWrite s t sel (srcVals s sel src) (srcNodeOf s src)
      (srcConstB s src)) (rootObjId s t)).node).constant = _
    rw [h1]
    show (nodeAt (doWrite s t sel (srcVals s sel src) (srcNodeOf s src)
      (srcConstB s src)) s.nodes.length).constant = _
    rw [doWrite_nodes_mutant]
    show ((nodeAt s (nodeRootId s (tensAt s t).node)).constant && srcConstB s src) = _
    rw [hct]
  · have hfam : o ∈ famOf s (rootObjId s t) := (famOf_mem _ _ _).mpr ⟨ho, hro, hor⟩
    have h1 := doWrite_tens_fam s t sel (srcVals s sel src) (srcNodeOf s src)
      (srcConstB s src) o hfam
    have h2 := doWrite_nodes_fam s t sel (srcVals s sel src) (srcNodeOf s src)
      (srcConstB s src) o hfam
    show (nodeAt _ (tensAt (doWrite s t sel (srcVals s sel src) (srcNodeOf s src)
      (srcConstB s src)) o).node).constant = _
    rw [h1]
    show (nodeAt (doWrite s t sel (srcVals s sel src) (srcNodeOf s src)
      (srcConstB s src)) (s.nodes.length + 1 +
        (famOf s (rootObjId s t)).indexOf o)).constant = _
    rw [h2]
    show ((nodeAt s (nodeRootId s (tensAt s t).node)).constant && srcConstB s src) = _
    rw [hct]

/-- Scenario for C6: a constant leaf `x`, a non-constant source `y`, and a
view of `x` created before the assignment `x[...] = y`. -/
def cpX : State × Nat := mkLeaf initState [1, 2, 3, 4] true true

def cpY : State × Nat := mkLeaf cpX.1 [0, 0, 0, 0] false true

def cpV : State × Nat := mkView cpY.1 cpX.2 [0, 1]

def cpAfter : State := tryInPlace cpV.1 cpX.2 [0, 1, 2, 3] (.tensor cpY.2)

/-- Witness for C6: a constant tensor written with a non-constant source
turns non-constant, and its pre-existing view observes the new flag. -/
theorem inplace_constant_propagation_witness :
    (StInv cpV.1 ∧ cpX.2 < cpV.1.tens.length ∧
      setitem cpV.1 cpX.2 [0, 1, 2, 3] (.tensor cpY.2) = .ok cpAfter) ∧
    (∀ o, o < cpV.1.tens.length → rootObjId cpV.1 o = rootObjId cpV.1 cpX.2 →
      constOf cpAfter o = (constOf cpV.1 cpX.2 && srcConstB cpV.1 (.tensor cpY.2))) ∧
    (constOf cpV.1 cpX.2 = true ∧ constOf cpV.1 cpV.2 = true ∧
      constOf cpAfter cpX.2 = false ∧ constOf cpAfter cpV.2 = false) := by
  refine ⟨by decide, ?_, by decide⟩
  exact inplace_constant_propagation cpV.1 (by decide) cpX.2 [0, 1, 2, 3] (.tensor cpY.2)
    cpAfter (by decide) (by decide)

/-! ### Structure lemmas for the backward executor -/

theorem stepNode_none (nodes : List Node) (bufs : List Buf) (i : Nat)
    (acc : Nat → Option (List Int)) (h : acc i = none) :
    stepNode nodes bufs i acc = acc := by
  unfold stepNode
  rw [h]

theorem depositMany_preserve (nodes : List Node) (l : List (Nat × List Int)) (j : Nat) :
    ∀ acc, (∀ p ∈ l, p.1 ≠ j) → depositMany nodes acc l j = acc j := by
  induction l with
  | nil =>
      intro acc _
      rfl
  | cons p rest ih =>
      intro acc h
      obtain ⟨k, gk⟩ := p
      rw [show depositMany nodes acc ((k, gk) :: rest) =
        depositMany nodes
          (if (nodes.getD k default).constant then acc else depositAt acc k gk) rest
        from rfl]
      rw [ih _ (fun q hq => h q (List.mem_cons_of_mem _ hq))]
      by_cases hc : (nodes.getD k default).constant = true
      · rw [if_pos hc]
      · rw [if_neg hc]
        show (if j = k then _ else acc j) = acc j
        rw [if_neg (fun he => h (k, gk) (List.mem_cons_self _ _) he.symm)]

theorem stepNode_targets (nodes : List Node) (bufs : List Buf) (i : Nat)
    (acc : Nat → Option (List Int)) (j : Nat)
    (h : ∀ p ∈ nodeParents (nodes.getD i default), p ≠ j) :
    stepNode nodes bufs i acc j = acc j := by
  unfold stepNode
  cases hai : acc i with
  | none => rfl
  | some g =>
      cases hbn : (nodes.getD i default).baseNode with
      | some r =>
          apply depositMany_preserve
          intro p hp
          simp only [List.mem_singleton] at hp
          subst hp
          apply h
          unfold nodeParents
          rw [hbn]
          simp
      | none =>
          cases hcr : (nodes.getD i default).creator with
          | none => rfl
          | some pr =>
              apply depositMany_preserve
              intro p hp
              obtain ⟨k, gk⟩ := p
              have hk := (List.of_mem_zip hp).1
              apply h
              unfold nodeParents
              rw [hcr]
              exact List.mem_append_left _ hk

theorem bprop_ge (nodes : List Node) (bufs : List Buf)
    (hwf : ∀ i, ∀ p ∈ nodeParents (nodes.getD i default), p < i) :
    ∀ fuel (acc : Nat → Option (List Int)) (j : Nat), fuel ≤ j →
      bprop nodes bufs fuel acc j = acc j := by
  intro fuel
  induction fuel with
  | zero =>
      intro acc j _
      rfl
  | succ i ih =>
      intro acc j hj
      show bprop nodes bufs i (stepNode nodes bufs i acc) j = acc j
      rw [ih _ j (Nat.le_of_succ_le hj)]
      exact stepNode_targets nodes bufs i acc j
        (fun p hp => Nat.ne_of_lt
          (Nat.lt_of_lt_of_le (Nat.lt_trans (hwf i p hp) (Nat.lt_succ_self i)) hj))

theorem bprop_skip_high (nodes : List Node) (bufs : List Buf) (N : Nat)
    (acc : Nat → Option (List Int)) :
    ∀ k, (∀ j, N ≤ j → j < N + k → acc j = none) →
      bprop nodes bufs (N + k) acc = bprop nodes bufs N acc := by
  intro k
  induction k with
  | zero =>
      intro _
      rfl
  | succ k ih =>
      intro h
      show bprop nodes bufs (N + k) (stepNode nodes bufs (N + k) acc) = _
      rw [stepNode_none nodes bufs (N + k) acc
        (h _ (Nat.le_add_right N k) (by omega))]
      exact ih (fun j h1 h2 => h j h1 (by omega))

theorem depositMany_congr (nodes1 nodes2 : List Node) (l : List (Nat × List Int))
    (h : ∀ p ∈ l,
      (nodes1.getD p.1 default).constant = (nodes2.getD p.1 default).constant) :
    ∀ acc, depositMany nodes1 acc l = depositMany nodes2 acc l := by
  induction l with
  | nil =>
      intro acc
      rfl
  | cons p rest ih =>
      intro acc
      obtain ⟨k, gk⟩ := p
      show depositMany nodes1 _ rest = depositMany nodes2 _ rest
      rw [h (k, gk) (List.mem_cons_self _ _)]
      exact ih (fun q hq => h q (List.mem_cons_of_mem _ hq)) _

theorem stepNode_congr (nodes1 nodes2 : List Node) (bufs1 bufs2 : List Buf) (i : Nat)
    (hni : nodes1.getD i default = nodes2.getD i default)
    (hpar : ∀ p ∈ nodeParents (nodes2.getD i default),
      nodes1.getD p default = nodes2.getD p default)
    (hdat : ∀ p ∈ nodeParents (nodes2.getD i default),
      ndata nodes1 bufs1 p = ndata nodes2 bufs2 p) :
    ∀ acc, stepNode nodes1 bufs1 i acc = stepNode nodes2 bufs2 i acc := by
  intro acc
  unfold stepNode
  cases acc i with
  | none => rfl
  | some g =>
      rw [hni]
      cases hbn : (nodes2.getD i default).baseNode with
      | some r =>
          have hrmem : r ∈ nodeParents (nodes2.getD i default) := by
            unfold nodeParents
            rw [hbn]
            simp
          show depositMany nodes1 acc
              [(r, scatterAdd (zerosL (nodes1.getD r default).idx.length)
                (nodes2.getD i default).idx g)] =
            depositMany nodes2 acc
              [(r, scatterAdd (zerosL (nodes2.getD r default).idx.length)
                (nodes2.getD i default).idx g)]
          rw [hpar r hrmem]
          exact depositMany_congr nodes1 nodes2 _
            (fun p hp => by
              simp only [List.mem_singleton] at hp
              subst hp
              rw [hpar r hrmem]) acc
      | none =>
          cases hcr : (nodes2.getD i default).creator with
          | none => rfl
          | some pr =>
              have hops : ∀ k ∈ pr.2, k ∈ nodeParents (nodes2.getD i default) := by
                intro k hk
                unfold nodeParents
                rw [hcr]
                exact List.mem_append_left _ hk
              have hds : pr.2.map (fun k => ndata nodes1 bufs1 k) =
                  pr.2.map (fun k => ndata nodes2 bufs2 k) :=
                List.map_congr_left (fun k hk => hdat k (hops k hk))
              show depositMany nodes1 acc
                  (pr.2.zip (opBackGrads pr.1
                    (pr.2.map (fun k => ndata nodes1 bufs1 k)) g)) =
                depositMany nodes2 acc
                  (pr.2.zip (opBackGrads pr.1
                    (pr.2.map (fun k => ndata nodes2 bufs2 k)) g))
              rw [hds]
              apply depositMany_congr
              intro p hp
              obtain ⟨k, gk⟩ := p
              have hk := (List.of_mem_zip hp).1
              rw [hpar k (hops k hk)]

theorem bprop_prefix (nodes1 nodes2 : List Node) (bufs1 bufs2 : List Buf) (N : Nat)
    (hn : ∀ i, i < N → nodes1.getD i default = nodes2.getD i default)
    (hd : ∀ i, i < N → ndata nodes1 bufs1 i = ndata nodes2 bufs2 i)
    (hwf : ∀ i, i < N → ∀ p ∈ nodeParents (nodes2.getD i default), p < i) :
    ∀ fuel, fuel ≤ N →
      ∀ acc, bprop nodes1 bufs1 fuel acc = bprop nodes2 bufs2 fuel acc := by
  intro fuel
  induction fuel with
  | zero =>
      intro _ acc
      rfl
  | succ i ih =>
      intro hle acc
      have hi : i < N := Nat.lt_of_succ_le hle
      show bprop nodes1 bufs1 i (stepNode nodes1 bufs1 i acc) = _
      rw [stepNode_congr nodes1 nodes2 bufs1 bufs2 i (hn i hi)
        (fun p hp => hn p (Nat.lt_trans (hwf i hi p hp) hi))
        (fun p hp => hd p (Nat.lt_trans (hwf i hi p hp) hi)) acc]
      exact ih (Nat.le_of_succ_le hle) _

/-- Under the invariant every graph edge points strictly backwards. -/
theorem parents_lt_of_inv (s : State) (hInv : StInv s) :
    ∀ i, ∀ p ∈ nodeParents (s.nodes.getD i default), p < i := by
  intro i p hp
  by_cases hi : i < s.nodes.length
  · have hn := hInv.1 i hi
    unfold NodeWF at hn
    unfold nodeAt at hn
    unfold nodeParents at hp
    rcases List.mem_append.mp hp with hp | hp
    · cases hcr : (s.nodes.getD i default).creator with
      | none =>
          rw [hcr] at hp
          exact absurd hp (by simp)
      | some pr =>
          rw [hcr] at hp
          exact hn.2.2.2.2.2.1 pr (by rw [hcr]; simp) p hp
    · cases hbn : (s.nodes.getD i default).baseNode with
      | none =>
          rw [hbn] at hp
          exact absurd hp (by simp)
      | some r =>
          rw [hbn] at hp
          simp only [List.mem_singleton] at hp
          subst hp
          exact (hn.2.2.2.2.1 p (by rw [hbn]; simp)).1
  · rw [List.getD_eq_default _ _ (Nat.le_of_not_lt hi)] at hp
    exact absurd hp (by simp [nodeParents])

/-- Releasing lock bookkeeping never changes a node's graph content. -/
theorem clearLocked_getD (is : List Nat) (ns : List Node) (i : Nat) :
    ((clearLocked ns is).getD i default).buf = (ns.getD i default).buf ∧
    ((clearLocked ns is).getD i default).idx = (ns.getD i default).idx ∧
    ((clearLocked ns is).getD i default).baseNode = (ns.getD i default).baseNode ∧
    ((clearLocked ns is).getD i default).constant = (ns.getD i default).constant := by
  induction is generalizing ns with
  | nil => exact ⟨rfl, rfl, rfl, rfl⟩
  | cons i0 rest ih =>
      have hstep : ∀ ns2 : List Node,
          (((match ns2.get? i0 with
            | none => ns2
            | some n => ns2.set i0 { n with locked := [] }) : List Node).getD i
              default).buf = (ns2.getD i default).buf ∧
          (((match ns2.get? i0 with
            | none => ns2
            | some n => ns2.set i0 { n with locked := [] }) : List Node).getD i
              default).idx = (ns2.getD i default).idx ∧
          (((match ns2.get? i0 with
            | none => ns2
            | some n => ns2.set i0 { n with locked := [] }) : List Node).getD i
              default).baseNode = (ns2.getD i default).baseNode ∧
          (((match ns2.get? i0 with
            | none => ns2
            | some n => ns2.set i0 { n with locked := [] }) : List Node).getD i
              default).constant = (ns2.getD i default).constant := by
        intro ns2
        cases hg : ns2.get? i0 with
        | none => exact ⟨rfl, rfl, rfl, rfl⟩
        | some n =>
            by_cases hi : i0 = i
            · subst hi
              have hlt : i0 < ns2.length := by
                by_contra hge
                rw [List.get?_eq_none.mpr (Nat.le_of_not_lt hge)] at hg
                exact Option.noConfusion hg
              have hgd : ns2.getD i0 default = n := by
                rw [List.getD_eq_getD_get?, hg]
                rfl
              rw [lgetD_set_self _ _ _ _ hlt, hgd]
              exact ⟨rfl, rfl, rfl, rfl⟩
            · rw [lgetD_set_ne _ _ _ _ _ hi]
              exact ⟨rfl, rfl, rfl, rfl⟩
      have h1 := ih (match ns.get? i0 with
        | none => ns
        | some n => ns.set i0 { n with locked := [] })
      have h2 := hstep ns
      exact ⟨h1.1.trans h2.1, h1.2.1.trans h2.2.1, h1.2.2.1.trans h2.2.2.1,
        h1.2.2.2.trans h2.2.2.2⟩

theorem backward_tens (s : State) (t : Nat) (sd : Option (List Int)) :
    (backward s t sd).tens = s.tens := rfl

theorem backward_nodeRootId (s : State) (t : Nat) (sd : Option (List Int)) (n : Nat) :
    nodeRootId (backward s t sd) n = nodeRootId s n := by
  unfold nodeRootId
  rw [show (nodeAt (backward s t sd) n).baseNode = (nodeAt s n).baseNode from
    (clearLocked_getD _ s.nodes n).2.2.1]

theorem backward_idx (s : State) (t : Nat) (sd : Option (List Int)) (n : Nat) :
    (nodeAt (backward s t sd) n).idx = (nodeAt s n).idx :=
  (clearLocked_getD _ s.nodes n).2.1

/-- What a gradient read observes after a backward pass: the final
accumulator of the handle's family root, through the handle's index map. -/
theorem gradOf_backward (s : State) (t o : Nat) (sd : Option (List Int))
    (hroot : nodeRootId s (tensAt s o).node < s.nodes.length) :
    gradOf (backward s t sd) o =
      (bprop s.nodes s.bufs s.nodes.length (seedAcc s t sd)
          (nodeRootId s (tensAt s o).node)).map
        (fun g => gatherIdx g (nodeAt s (tensAt s o).node).idx) := by
  unfold gradOf
  rw [show tensAt (backward s t sd) o = tensAt s o from rfl]
  rw [backward_nodeRootId, backward_idx]
  rw [show (backward s t sd).gacc = (List.range s.nodes.length).map
    (bprop s.nodes s.bufs s.nodes.length (seedAcc s t sd)) from rfl]
  rw [lgetD_range_map _ _ _ _ hroot]

theorem doWrite_nodes_length (s : State) (t : Nat) (sel : List Nat) (vals : List Int)
    (sn : Option Nat) (sc : Bool) :
    (doWrite s t sel vals sn sc).nodes.length =
      s.nodes.length + 1 + (famOf s (rootObjId s t)).length := by
  show (s.nodes ++ [mutantNodeOf s t sel vals sn sc] ++ _).length = _
  simp [List.length_append]
  omega

theorem nodeRoot_lt (s : State) (hInv : StInv s) (n : Nat) (hn : n < s.nodes.length) :
    nodeRootId s n < s.nodes.length := by
  unfold nodeRootId
  cases hb : (nodeAt s n).baseNode with
  | none => simpa using hn
  | some r => simpa using Nat.lt_trans ((hInv.1 n hn).2.2.2.2.1 r (by simp [hb])).1 hn

/-- A backward pass launched from a terminal outside the written family
deposits, on every tensor outside the family, exactly the gradients it would
have deposited before the write: the recorded graph reads the pre-mutation
storage, which the mutation handler never touches. -/
theorem doWrite_backward_outside (s : State) (hInv : StInv s) (t : Nat) (sel : List Nat)
    (vals : List Int) (sn : Option Nat) (sc : Bool) (ht : t < s.tens.length)
    (z o : Nat) (hz : z < s.tens.length) (hzf : rootObjId s z ≠ rootObjId s t)
    (ho : o < s.tens.length) (hof : rootObjId s o ≠ rootObjId s t)
    (sd : Option (List Int)) :
    gradOf (backward (doWrite s t sel vals sn sc) z sd) o =
      gradOf (backward s z sd) o := by
  have htz := (doWrite_outside_reads s hInv t sel vals sn sc ht z hz hzf).2
  have hto := (doWrite_outside_reads s hInv t sel vals sn sc ht o ho hof).2
  have htn : (tensAt s z).node < s.nodes.length := (hInv.2 z hz).1
  have hton : (tensAt s o).node < s.nodes.length := (hInv.2 o ho).1
  have hnz := doWrite_nodes_old s t sel vals sn sc _ htn
  have hno := doWrite_nodes_old s t sel vals sn sc _ hton
  have hseed : seedAcc (doWrite s t sel vals sn sc) z sd = seedAcc s z sd := by
    unfold seedAcc
    rw [htz, hnz]
  have hrno : nodeRootId (doWrite s t sel vals sn sc)
      (tensAt (doWrite s t sel vals sn sc) o).node =
      nodeRootId s (tensAt s o).node := by
    unfold nodeRootId
    rw [hto, hno]
  have hrlt : nodeRootId s (tensAt s o).node < s.nodes.length :=
    nodeRoot_lt s hInv _ hton
  have hrlt2 : nodeRootId (doWrite s t sel vals sn sc)
      (tensAt (doWrite s t sel vals sn sc) o).node <
      (doWrite s t sel vals sn sc).nodes.length := by
    rw [hrno, doWrite_nodes_length]
    omega
  have hnone : ∀ j, s.nodes.length ≤ j → seedAcc s z sd j = none := by
    intro j hj
    unfold seedAcc
    rw [if_neg]
    rintro ⟨he, _⟩
    rw [he] at hj
    exact Nat.not_le_of_lt htn hj
  have hdata : ∀ i, i < s.nodes.length →
      ndata (doWrite s t sel vals sn sc).nodes (doWrite s t sel vals sn sc).bufs i =
      ndata s.nodes s.bufs i := by
    intro i hi
    unfold ndata
    rw [show (doWrite s t sel vals sn sc).nodes.getD i default = s.nodes.getD i default
      from doWrite_nodes_old s t sel vals sn sc i hi]
    have hb : (s.nodes.getD i default).buf < s.bufs.length := (hInv.1 i hi).1
    rw [show ((doWrite s t sel vals sn sc).bufs.getD (s.nodes.getD i default).buf
      ⟨[], true, 0⟩).data = (s.bufs.getD (s.nodes.getD i default).buf ⟨[], true, 0⟩).data
      from (doWrite_bufs_old s t sel vals sn sc _ hb).1]
  have hfun : bprop (doWrite s t sel vals sn sc).nodes (doWrite s t sel vals sn sc).bufs
      (doWrite s t sel vals sn sc).nodes.length
      (seedAcc (doWrite s t sel vals sn sc) z sd) =
      bprop s.nodes s.bufs s.nodes.length (seedAcc s z sd) := by
    rw [hseed, doWrite_nodes_length,
      show s.nodes.length + 1 + (famOf s (rootObjId s t)).length =
        s.nodes.length + (1 + (famOf s (rootObjId s t)).length) from by omega,
      bprop_skip_high _ _ _ _ _ (fun j h1 _ => hnone j h1)]
    exact bprop_prefix _ _ _ _ s.nodes.length
      (fun i hi => doWrite_nodes_old s t sel vals sn sc i hi)
      hdata
      (fun i _ => parents_lt_of_inv s hInv i)
      s.nodes.length (Nat.le_refl _) (seedAcc s z sd)
  rw [gradOf_backward _ z o sd hrlt2, gradOf_backward s z o sd hrlt]
  rw [hrno, hto, hno, hfun]

/-- C2: a later in-place write to `y` changes neither the value of a
computation `z` recorded before the write nor the gradients that a backward
pass from `z` deposits on tensors outside `y`'s view family — the recorded
graph keeps reading the pre-mutation value of `y` — while `y` and every view
of `y` read as mutated for all subsequent operations. -/
theorem mutation_preserves_recorded (s : State) (hInv : StInv s) (t : Nat)
    (sel : List Nat) (src : Src) (s2 : State) (ht : t < s.tens.length)
    (hok : setitem s t sel src = .ok s2) (z o : Nat)
    (hz : z < s.tens.length) (hzf : rootObjId s z ≠ rootObjId s t)
    (ho : o < s.tens.length) (hof : rootObjId s o ≠ rootObjId s t)
    (sd : Option (List Int)) :
    dataOf s2 z = dataOf s z ∧
    gradOf (backward s2 z sd) o = gradOf (backward s z sd) o ∧
    (∀ oo, oo < s.tens.length → rootObjId s oo = rootObjId s t →
      dataOf s2 oo = gatherIdx (doWriteData s t sel (srcVals s sel src))
        (nodeAt s (tensAt s oo).node).idx) := by
  have hs2 := setitem_ok_eq s t sel src s2 hok
  subst hs2
  exact ⟨(doWrite_outside_reads s hInv t sel _ _ _ ht z hz hzf).1,
    doWrite_backward_outside s hInv t sel _ _ _ ht z o hz hzf ho hof sd,
    doWrite_family_reads s hInv t sel _ _ _ ht⟩

/-- Scenario for C2: `z = x * y * view * view2` (pointwise, so `z = x^4`)
recorded before the write `y[:2] = 0`. -/
def msX : State × Nat := mkLeaf initState [1, 2, 3, 4] false true

def msY : State × Nat := applyOp msX.1 .plus [msX.2]

def msV1 : State × Nat := mkView msY.1 msY.2 [0, 1, 2, 3]

def msV2 : State × Nat := mkView msV1.1 msV1.2 [0, 1, 2, 3]

def msZ : State × Nat := applyOp msV2.1 .mulSeq [msX.2, msY.2, msV1.2, msV2.2]

def msAfter : State := tryInPlace msZ.1 msV1.2 [0, 1] (.scalar 0)

/-- Witness for C2: after `y[:2] = 0`, `z` still reads `x^4`, backward
through `z` still deposits `4 x^3` on `x`, and the mutated family reads the
written storage. -/
theorem mutation_preserves_recorded_witness :
    (StInv msZ.1 ∧ msV1.2 < msZ.1.tens.length ∧
      setitem msZ.1 msV1.2 [0, 1] (.scalar 0) = .ok msAfter ∧
      msZ.2 < msZ.1.tens.length ∧
      rootObjId msZ.1 msZ.2 ≠ rootObjId msZ.1 msV1.2 ∧
      msX.2 < msZ.1.tens.length ∧
      rootObjId msZ.1 msX.2 ≠ rootObjId msZ.1 msV1.2) ∧
    (dataOf msAfter msZ.2 = dataOf msZ.1 msZ.2 ∧
      gradOf (backward msAfter msZ.2 none) msX.2 =
        gradOf (backward msZ.1 msZ.2 none) msX.2 ∧
      (∀ oo, oo < msZ.1.tens.length → rootObjId msZ.1 oo = rootObjId msZ.1 msV1.2 →
        dataOf msAfter oo =
          gatherIdx (doWriteData msZ.1 msV1.2 [0, 1] (srcVals msZ.1 [0, 1] (.scalar 0)))
            (nodeAt msZ.1 (tensAt msZ.1 oo).node).idx)) ∧
    (dataOf msAfter msZ.2 = [1, 16, 81, 256] ∧
      gradOf (backward msAfter msZ.2 none) msX.2 = some [4, 32, 108, 256] ∧
      gradOf (backward msAfter msZ.2 none) msY.2 = none ∧
      dataOf msAfter msY.2 = [0, 0, 3, 4]) := by
  refine ⟨by decide, ?_, by decide⟩
  exact mutation_preserves_recorded msZ.1 (by decide) msV1.2 [0, 1] (.scalar 0)
    msAfter (by decide) (by decide) msZ.2 msX.2 (by decide) (by decide) (by decide)
    (by decide) none

/-! ### Scatter/gather arithmetic for permutation views -/

theorem scatterAdd_length (ix : List Nat) (d : List Int) (vs : List Int) :
    (scatterAdd d ix vs).length = d.length := by
  induction ix generalizing d vs with
  | nil => cases vs <;> rfl
  | cons p ps ih =>
      cases vs with
      | nil => rfl
      | cons v vs =>
          show (scatterAdd (d.set p (d.getD p 0 + v)) ps vs).length = _
          rw [ih]
          exact List.length_set d p _

theorem zerosL_getD (n j : Nat) : (zerosL n).getD j 0 = 0 := by
  unfold zerosL
  rcases Nat.lt_or_ge j n with hj | hj
  · rw [List.getD_eq_getElem _ _ (by simpa using hj)]
    exact List.getElem_replicate 0 _
  · exact List.getD_eq_default _ _ (by simpa using hj)

theorem scatterAdd_gather_getD (ix : List Nat) (dd : List Int) :
    ∀ base : List Int, ix.Nodup → (∀ p ∈ ix, p < base.length) → ∀ j,
      (scatterAdd base ix (gatherIdx dd ix)).getD j 0 =
        if j ∈ ix then base.getD j 0 + dd.getD j 0 else base.getD j 0 := by
  induction ix with
  | nil =>
      intro base _ _ j
      simp [scatterAdd, gatherIdx]
  | cons p ps ih =>
      intro base hnd hb j
      show (scatterAdd (base.set p (base.getD p 0 + dd.getD p 0)) ps
        (gatherIdx dd ps)).getD j 0 = _
      rw [ih _ (List.Nodup.of_cons hnd)
        (fun q hq => by
          rw [List.length_set]
          exact hb q (List.mem_cons_of_mem _ hq)) j]
      by_cases hj : j ∈ ps
      · rw [if_pos hj, if_pos (List.mem_cons_of_mem _ hj)]
        have hne : p ≠ j := fun he => (List.nodup_cons.mp hnd).1 (he ▸ hj)
        rw [lgetD_set_ne _ _ _ _ _ hne]
      · rw [if_neg hj]
        by_cases hjp : j = p
        · subst hjp
          rw [if_pos (List.mem_cons_self _ _)]
          rw [lgetD_set_self _ _ _ _ (hb j (List.mem_cons_self _ _))]
        · rw [if_neg (fun hm => by
            rcases List.mem_cons.mp hm with h | h
            · exact hjp h
            · exact hj h)]
          rw [lgetD_set_ne _ _ _ _ _ (fun he => hjp he.symm)]

/-- Scattering the gather of `d` through a permutation of all positions back
into zeros reproduces `d`: the core fact behind element-preserving view
gradients. -/
theorem scatterAdd_perm (d : List Int) (ix : List Nat)
    (hperm : ix.Perm (List.range d.length)) :
    scatterAdd (zerosL d.length) ix (gatherIdx d ix) = d := by
  have hnd : ix.Nodup := hperm.nodup_iff.mpr (List.nodup_range _)
  have hbnd : ∀ p ∈ ix, p < d.length := fun p hp =>
    List.mem_range.mp (hperm.mem_iff.mp hp)
  apply List.ext_getElem
  · rw [scatterAdd_length]
    simp [zerosL]
  · intro j h1 h2
    have hlen : (zerosL d.length).length = d.length := by simp [zerosL]
    have hj : j ∈ ix := hperm.mem_iff.mpr (List.mem_range.mpr h2)
    have hgd := scatterAdd_gather_getD ix d (zerosL d.length) hnd
      (fun p hp => by
        rw [hlen]
        exact hbnd p hp) j
    rw [if_pos hj, zerosL_getD] at hgd
    rw [← List.getD_eq_getElem _ 0 h1, hgd, Int.zero_add]
    exact List.getD_eq_getElem d 0 h2

theorem stepNode_view_deposit (nodes : List Node) (bufs : List Buf) (i : Nat)
    (acc : Nat → Option (List Int)) (g : List Int) (r : Nat)
    (hai : acc i = some g) (hbn : (nodes.getD i default).baseNode = some r)
    (hnc : (nodes.getD r default).constant = false) (hr : acc r = none) :
    stepNode nodes bufs i acc r =
      some (scatterAdd (zerosL (nodes.getD r default).idx.length)
        (nodes.getD i default).idx g) := by
  unfold stepNode
  rw [hai, hbn]
  show depositMany nodes acc
    [(r, scatterAdd (zerosL (nodes.getD r default).idx.length)
      (nodes.getD i default).idx g)] r = _
  show (if (nodes.getD r default).constant = true then acc
    else depositAt acc r (scatterAdd (zerosL (nodes.getD r default).idx.length)
      (nodes.getD i default).idx g)) r = _
  rw [if_neg (fun hcontra => by rw [hnc] at hcontra; exact Bool.noConfusion hcontra)]
  show (if r = r then
    some (match acc r with
      | none => scatterAdd (zerosL (nodes.getD r default).idx.length)
          (nodes.getD i default).idx g
      | some a => addVec a (scatterAdd (zerosL (nodes.getD r default).idx.length)
          (nodes.getD i default).idx g))
    else acc r) = _
  rw [if_pos rfl, hr]

theorem stepNode_view_other (nodes : List Node) (bufs : List Buf) (i : Nat)
    (acc : Nat → Option (List Int)) (j r : Nat)
    (hbn : (nodes.getD i default).baseNode = some r) (hj : j ≠ r) :
    stepNode nodes bufs i acc j = acc j := by
  unfold stepNode
  cases hai : acc i with
  | none => rfl
  | some g =>
      rw [hbn]
      show depositMany nodes acc
        [(r, scatterAdd (zerosL (nodes.getD r default).idx.length)
          (nodes.getD i default).idx g)] j = acc j
      apply depositMany_preserve
      intro p hp
      simp only [List.mem_singleton] at hp
      subst hp
      exact fun he => hj he.symm

/-- The accumulator a backward pass seeded with a permutation view's own
data leaves at the family root: exactly the root's whole storage. -/
theorem backward_perm_root_acc (s : State) (hInv : StInv s) (v : Nat)
    (hv : v < s.tens.length)
    (hcv : (nodeAt s (tensAt s v).node).constant = false)
    (hcr : (nodeAt s (nodeRootId s (tensAt s v).node)).constant = false)
    (hperm : (nodeAt s (tensAt s v).node).idx.Perm
      (List.range (bufAt s (bufOfObj s v)).data.length)) :
    bprop s.nodes s.bufs s.nodes.length (seedAcc s v (some (dataOf s v)))
      (nodeRootId s (tensAt s v).node) =
      some (bufAt s (bufOfObj s v)).data := by
  have htn : (tensAt s v).node < s.nodes.length := (hInv.2 v hv).1
  have hwfp := parents_lt_of_inv s hInv
  have hseedv : seedAcc s v (some (dataOf s v)) (tensAt s v).node = some (dataOf s v) := by
    unfold seedAcc
    rw [if_pos ⟨rfl, hcv⟩]
    rfl
  have hnone : ∀ j, (tensAt s v).node < j → seedAcc s v (some (dataOf s v)) j = none := by
    intro j hj
    unfold seedAcc
    rw [if_neg]
    rintro ⟨he, _⟩
    omega
  have hskip1 : bprop s.nodes s.bufs s.nodes.length (seedAcc s v (some (dataOf s v))) =
      bprop s.nodes s.bufs ((tensAt s v).node + 1) (seedAcc s v (some (dataOf s v))) := by
    rw [show s.nodes.length =
      ((tensAt s v).node + 1) + (s.nodes.length - ((tensAt s v).node + 1)) from by omega]
    exact bprop_skip_high _ _ _ _ _ (fun j h1 _ => hnone j (by omega))
  rw [hskip1]
  rw [show bprop s.nodes s.bufs ((tensAt s v).node + 1) (seedAcc s v (some (dataOf s v))) =
    bprop s.nodes s.bufs (tensAt s v).node
      (stepNode s.nodes s.bufs (tensAt s v).node (seedAcc s v (some (dataOf s v))))
    from rfl]
  cases hbn : (s.nodes.getD (tensAt s v).node default).baseNode with
  | none =>
      -- the terminal is itself the family root
      have hrn : nodeRootId s (tensAt s v).node = (tensAt s v).node := by
        unfold nodeRootId
        rw [show (nodeAt s (tensAt s v).node).baseNode = none from hbn]
        rfl
      rw [hrn]
      rw [bprop_ge s.nodes s.bufs hwfp _ _ _ (Nat.le_refl _)]
      rw [stepNode_targets s.nodes s.bufs _ _ _
        (fun p hp => Nat.ne_of_lt (hwfp _ p hp))]
      rw [hseedv]
      -- a root node reads its whole buffer
      have hidx : (nodeAt s (tensAt s v).node).idx =
          List.range (bufAt s (nodeAt s (tensAt s v).node).buf).data.length :=
        (hInv.1 _ htn).2.2.2.1 hbn
      rw [dataOf_eq, hidx]
      rw [gatherIdx_range_len _ rfl]
      rfl
  | some rn =>
      have hrn : nodeRootId s (tensAt s v).node = rn := by
        unfold nodeRootId
        rw [show (nodeAt s (tensAt s v).node).baseNode = some rn from hbn]
        rfl
      have hE := (hInv.1 _ htn).2.2.2.2.1 rn
        (by rw [show (nodeAt s (tensAt s v).node).baseNode = some rn from hbn]; simp)
      have hrlt : rn < (tensAt s v).node := hE.1
      have hrcf : (s.nodes.getD rn default).constant = false := by
        rw [hrn] at hcr
        exact hcr
      have hseedr : seedAcc s v (some (dataOf s v)) rn = none := by
        unfold seedAcc
        rw [if_neg]
        rintro ⟨he, _⟩
        omega
      have hstep := stepNode_view_deposit s.nodes s.bufs (tensAt s v).node
        (seedAcc s v (some (dataOf s v))) (dataOf s v) rn hseedv hbn hrcf hseedr
      -- skip the untouched region strictly between root and terminal
      have hother : ∀ j, rn < j → j < (tensAt s v).node →
          stepNode s.nodes s.bufs (tensAt s v).node (seedAcc s v (some (dataOf s v))) j =
            none := by
        intro j h1 h2
        rw [stepNode_view_other s.nodes s.bufs _ _ j rn hbn (by omega)]
        unfold seedAcc
        rw [if_neg]
        rintro ⟨he, _⟩
        omega
      have hskip2 : bprop s.nodes s.bufs (tensAt s v).node
          (stepNode s.nodes s.bufs (tensAt s v).node (seedAcc s v (some (dataOf s v)))) =
          bprop s.nodes s.bufs (rn + 1)
            (stepNode s.nodes s.bufs (tensAt s v).node
              (seedAcc s v (some (dataOf s v)))) := by
        have hsk := bprop_skip_high s.nodes s.bufs (rn + 1)
          (stepNode s.nodes s.bufs (tensAt s v).node (seedAcc s v (some (dataOf s v))))
          ((tensAt s v).node - (rn + 1))
          (fun j h1 h2 => hother j (by omega) (by omega))
        rw [show (rn + 1) + ((tensAt s v).node - (rn + 1)) = (tensAt s v).node
          from by omega] at hsk
        exact hsk
      rw [hrn, hskip2]
      rw [show bprop s.nodes s.bufs (rn + 1)
        (stepNode s.nodes s.bufs (tensAt s v).node (seedAcc s v (some (dataOf s v)))) =
        bprop s.nodes s.bufs rn
          (stepNode s.nodes s.bufs rn
            (stepNode s.nodes s.bufs (tensAt s v).node
              (seedAcc s v (some (dataOf s v))))) from rfl]
      rw [bprop_ge s.nodes s.bufs hwfp _ _ _ (Nat.le_refl _)]
      rw [stepNode_targets s.nodes s.bufs _ _ _
        (fun p hp => Nat.ne_of_lt (hwfp _ p hp))]
      rw [hstep]
      -- the root node covers its whole buffer, shared with the view
      have hrbase : (nodeAt s rn).baseNode = none := hE.2.1
      have hrbuf : (nodeAt s rn).buf = (nodeAt s (tensAt s v).node).buf := hE.2.2
      have hroot_idx : (nodeAt s rn).idx =
          List.range (bufAt s (nodeAt s rn).buf).data.length :=
        (hInv.1 rn (Nat.lt_trans hrlt htn)).2.2.2.1 hrbase
      rw [show (s.nodes.getD rn default).idx = (nodeAt s rn).idx from rfl, hroot_idx,
        hrbuf]
      rw [List.length_range]
      rw [show (s.nodes.getD (tensAt s v).node default).idx =
        (nodeAt s (tensAt s v).node).idx from rfl]
      rw [show (nodeAt s (tensAt s v).node).buf = bufOfObj s v from rfl]
      rw [dataOf_eq]
      rw [show (nodeAt s (tensAt s v).node).buf = bufOfObj s v from rfl]
      rw [scatterAdd_perm _ _ hperm]

/-- A gradient array as a storage reference: the owning family root
accumulator, the element positions read from it, and whether this is the
root's own accumulator array. -/
structure GradArr where
  owner : Nat
  pos : List Nat
  isRoot : Bool
  deriving DecidableEq, Repr

/-- The gradient array a handle exposes: a view of its family root's
accumulator through its own index map (spec section 4.5 step 3). -/
def gradArrOf (s : State) (o : Nat) : Option GradArr :=
  match s.gacc.getD (nodeRootId s (tensAt s o).node) none with
  | none => none
  | some _ =>
      some ⟨nodeRootId s (tensAt s o).node, (nodeAt s (tensAt s o).node).idx,
        (tensAt s o).baseObj.isNone⟩

/-- The base array of an exposed gradient: none for the root accumulator
itself, the whole root accumulator for a view's gradient. -/
def gradBase (s : State) (ga : GradArr) : Option GradArr :=
  if ga.isRoot then none
  else some ⟨ga.owner, List.range ((s.gacc.getD ga.owner none).getD []).length, true⟩

theorem backward_gacc_getD (s : State) (t : Nat) (sd : Option (List Int)) (i : Nat)
    (hi : i < s.nodes.length) :
    (backward s t sd).gacc.getD i none =
      bprop s.nodes s.bufs s.nodes.length (seedAcc s t sd) i := by
  rw [show (backward s t sd).gacc = (List.range s.nodes.length).map
    (bprop s.nodes s.bufs s.nodes.length (seedAcc s t sd)) from rfl,
    lgetD_range_map _ _ _ _ hi]

theorem gradArrOf_backward_some (s : State) (t o : Nat) (sd : Option (List Int))
    (g : List Int) (hroot : nodeRootId s (tensAt s o).node < s.nodes.length)
    (hsome : bprop s.nodes s.bufs s.nodes.length (seedAcc s t sd)
      (nodeRootId s (tensAt s o).node) = some g) :
    gradArrOf (backward s t sd) o =
      some ⟨nodeRootId s (tensAt s o).node, (nodeAt s (tensAt s o).node).idx,
        (tensAt s o).baseObj.isNone⟩ := by
  unfold gradArrOf
  rw [show tensAt (backward s t sd) o = tensAt s o from rfl, backward_nodeRootId,
    backward_idx, backward_gacc_getD s t sd _ hroot, hsome]

/-- C3: backpropagating a size- and element-preserving view's own data from
the view makes every member of its view family carry gradient equal to its
own data, and every non-root member's gradient is itself a view of the
root's gradient: its base is the root's gradient array. -/
theorem view_backward_grad_equals_data (s : State) (hInv : StInv s) (v r : Nat)
    (hv : v < s.tens.length) (hr : rootObjId s v = r)
    (hcv : (nodeAt s (tensAt s v).node).constant = false)
    (hcr : (nodeAt s (tensAt s r).node).constant = false)
    (hperm : (nodeAt s (tensAt s v).node).idx.Perm
      (List.range (bufAt s (bufOfObj s v)).data.length)) :
    (∀ u, u < s.tens.length → rootObjId s u = r →
      gradOf (backward s v (some (dataOf s v))) u = some (dataOf s u)) ∧
    (∀ u, u < s.tens.length → rootObjId s u = r → ∀ b ∈ (baseObjOf s u).toList,
      ∃ ga gb, gradArrOf (backward s v (some (dataOf s v))) u = some ga ∧
        gradBase (backward s v (some (dataOf s v))) ga = some gb ∧
        gradArrOf (backward s v (some (dataOf s v))) b = some gb) := by
  have htn : (tensAt s v).node < s.nodes.length := (hInv.2 v hv).1
  have hcov : nodeRootId s (tensAt s v).node = (tensAt s r).node := by
    rw [nodeRoot_coherent s hInv v hv, hr]
  have hcr2 : (nodeAt s (nodeRootId s (tensAt s v).node)).constant = false := by
    rw [hcov]
    exact hcr
  have hacc := backward_perm_root_acc s hInv v hv hcv hcr2 hperm
  have hrnv_lt : nodeRootId s (tensAt s v).node < s.nodes.length :=
    nodeRoot_lt s hInv _ htn
  have hmem : ∀ u, u < s.tens.length → rootObjId s u = r →
      nodeRootId s (tensAt s u).node = nodeRootId s (tensAt s v).node := by
    intro u hu hru
    rw [nodeRoot_coherent s hInv u hu, hru, hcov]
  have hbufu : ∀ u, u < s.tens.length → rootObjId s u = r →
      bufOfObj s u = bufOfObj s v := by
    intro u hu hru
    rw [← buf_coherent s hInv u hu, hmem u hu hru, buf_coherent s hInv v hv]
  constructor
  · intro u hu hru
    rw [gradOf_backward s v u _ (by rw [hmem u hu hru]; exact hrnv_lt)]
    rw [hmem u hu hru, hacc]
    rw [dataOf_eq]
    rw [show (nodeAt s (tensAt s u).node).buf = bufOfObj s u from rfl]
    rw [hbufu u hu hru]
    rfl
  · intro u hu hru b hb
    rcases hx : (tensAt s u).baseObj with _ | b2
    · unfold baseObjOf at hb
      rw [hx] at hb
      exact absurd hb (by simp)
    · unfold baseObjOf at hb
      rw [hx] at hb
      simp only [Option.toList_some, List.mem_singleton] at hb
      subst hb
      have htwu := hInv.2 u hu
      unfold TensWF at htwu
      have hclause := htwu.2.2 b (by simp [hx])
      have hblt : b < s.tens.length := hclause.1
      have hb2none : (tensAt s b).baseObj = none := hclause.2.1
      have hbnode : (tensAt s b).node = nodeRootId s (tensAt s v).node := by
        rw [← hclause.2.2]
        exact hmem u hu hru
      have hb2base : (nodeAt s (tensAt s b).node).baseNode = none :=
        (hInv.2 b hblt).2.1 hb2none
      have hroots : nodeRootId s (tensAt s b).node = nodeRootId s (tensAt s v).node := by
        unfold nodeRootId
        rw [hb2base]
        simpa using hbnode
      refine ⟨⟨nodeRootId s (tensAt s v).node, (nodeAt s (tensAt s u).node).idx, false⟩,
        ⟨nodeRootId s (tensAt s v).node,
          List.range (bufAt s (bufOfObj s v)).data.length, true⟩, ?_, ?_, ?_⟩
      · rw [gradArrOf_backward_some s v u (some (dataOf s v)) _
          (by rw [hmem u hu hru]; exact hrnv_lt) (by rw [hmem u hu hru]; exact hacc)]
        rw [hmem u hu hru, hx]
        rfl
      · unfold gradBase
        rw [if_neg (fun hcontra => Bool.noConfusion hcontra)]
        rw [backward_gacc_getD s v (some (dataOf s v)) _ hrnv_lt, hacc]
        rfl
      · rw [gradArrOf_backward_some s v b (some (dataOf s v)) _
          (by rw [hroots]; exact hrnv_lt) (by rw [hroots]; exact hacc)]
        have hb2n : (tensAt s b).node < s.nodes.length := (hInv.2 b hblt).1
        have hidx : (nodeAt s (tensAt s b).node).idx =
            List.range (bufAt s (nodeAt s (tensAt s b).node).buf).data.length :=
          (hInv.1 _ hb2n).2.2.2.1 hb2base
        rw [hroots, hb2none, hidx, hbnode, buf_coherent s hInv v hv]
        rfl

/-- Witness for C3: backward from the view-of-view, seeded with its own
data, gives every family member gradient equal to its data, each view's
gradient being a view of the root's gradient array. -/
theorem view_backward_grad_equals_data_witness :
    (StInv vfV2.1 ∧ vfV2.2 < vfV2.1.tens.length ∧ rootObjId vfV2.1 vfV2.2 = vfY.2 ∧
      (nodeAt vfV2.1 (tensAt vfV2.1 vfV2.2).node).constant = false ∧
      (nodeAt vfV2.1 (tensAt vfV2.1 vfY.2).node).constant = false ∧
      (nodeAt vfV2.1 (tensAt vfV2.1 vfV2.2).node).idx.Perm
        (List.range (bufAt vfV2.1 (bufOfObj vfV2.1 vfV2.2)).data.length)) ∧
    ((∀ u, u < vfV2.1.tens.length → rootObjId vfV2.1 u = vfY.2 →
      gradOf (backward vfV2.1 vfV2.2 (some (dataOf vfV2.1 vfV2.2))) u =
        some (dataOf vfV2.1 u)) ∧
      (∀ u, u < vfV2.1.tens.length → rootObjId vfV2.1 u = vfY.2 →
        ∀ b ∈ (baseObjOf vfV2.1 u).toList, ∃ ga gb,
          gradArrOf (backward vfV2.1 vfV2.2 (some (dataOf vfV2.1 vfV2.2))) u = some ga ∧
          gradBase (backward vfV2.1 vfV2.2 (some (dataOf vfV2.1 vfV2.2))) ga = some gb ∧
          gradArrOf (backward vfV2.1 vfV2.2 (some (dataOf vfV2.1 vfV2.2))) b = some gb)) ∧
    (gradOf (backward vfV2.1 vfV2.2 (some (dataOf vfV2.1 vfV2.2))) vfY.2 =
        some [1, 2, 3, 4] ∧
      gradOf (backward vfV2.1 vfV2.2 (some (dataOf vfV2.1 vfV2.2))) vfV1.2 =
        some [1, 2, 3, 4]) := by
  refine ⟨by decide, ?_, by decide⟩
  exact view_backward_grad_equals_data vfV2.1 (by decide) vfV2.2 vfY.2 (by decide)
    (by decide) (by decide) (by decide) (by decide)

/-! ### Writeability round-trip scenario (spec section 4.4.1, section 4.6) -/

/-- Leaf tensor with declared constant flag c and declared writeability w. -/
def wrX (c w : Bool) : State × Nat := mkLeaf initState [1, 2, 3, 4] c w

/-- Non-view op over the writeable leaf, recording a pending dependency. -/
def wrY (c : Bool) : State × Nat := applyOp (wrX c true).1 .plus [(wrX c true).2]

/-- Full-range in-place assignment of 0 into y, with the guard enabled. -/
def wrAfter (c : Bool) : State := tryInPlace (wrY c).1 (wrY c).2 [0, 1, 2, 3] (.scalar 0)

/-- State after the backward pass through the mutated y. -/
def wrBack (c : Bool) : State := backward (wrAfter c) (wrY c).2 none

/-- State after an early clear_graph on the mutated y instead of backward. -/
def wrClear (c : Bool) : State := clearGraph (wrAfter c) (wrY c).2

/-- Ancestor node set a backward pass or an early clear_graph releases: the
dedup of the fuelled ancestor closure from the tensor's current node (spec
section 4.5 step 5 and section 6). -/
def backAncs (s : State) (t : Nat) : List Nat :=
  (ancFrom s.nodes s.nodes.length [(tensAt s t).node]).dedup

/-- Modelled from the spec: memory-guard lock accounting (section 4.6).  A
buffer's outstanding lock counter equals the number of lock entries naming it
across all recorded nodes: every lock taken is held by exactly one node,
pending release by a backward pass over that node. -/
def LockInv (s : State) : Prop :=
  ∀ b, b < s.bufs.length →
    (bufAt s b).locks =
      (((List.range s.nodes.length).map (fun j => (nodeAt s j).locked)).flatten).count b

instance (s : State) : Decidable (LockInv s) := by
  unfold LockInv
  infer_instance

theorem decLock_length (bufs : List Buf) (b0 : Nat) :
    (decLock bufs b0).length = bufs.length := by
  unfold decLock
  cases bufs.get? b0 <;> simp

theorem decLocks_length (bs : List Nat) (bufs : List Buf) :
    (decLocks bufs bs).length = bufs.length := by
  induction bs generalizing bufs with
  | nil => rfl
  | cons b0 bs ih => exact (ih (decLock bufs b0)).trans (decLock_length bufs b0)

/-- Releasing a memory-guard lock changes neither payload nor declared flag. -/
theorem decLock_getD (bufs : List Buf) (b0 b : Nat) (d : Buf) :
    ((decLock bufs b0).getD b d).data = (bufs.getD b d).data ∧
    ((decLock bufs b0).getD b d).origW = (bufs.getD b d).origW := by
  unfold decLock
  cases hg : bufs.get? b0 with
  | none => exact ⟨rfl, rfl⟩
  | some r =>
      by_cases hb : b0 = b
      · subst hb
        have hlt : b0 < bufs.length := by
          by_contra hge
          rw [List.get?_eq_none.mpr (Nat.le_of_not_lt hge)] at hg
          exact Option.noConfusion hg
        have hgd : bufs.getD b0 d = r := by
          rw [List.getD_eq_getD_get?, hg]
          rfl
        rw [lgetD_set_self _ _ _ _ hlt, hgd]
        exact ⟨rfl, rfl⟩
      · rw [lgetD_set_ne _ _ _ _ _ hb]
        exact ⟨rfl, rfl⟩

theorem decLocks_getD (bs : List Nat) (bufs : List Buf) (b : Nat) (d : Buf) :
    ((decLocks bufs bs).getD b d).data = (bufs.getD b d).data ∧
    ((decLocks bufs bs).getD b d).origW = (bufs.getD b d).origW := by
  induction bs generalizing bufs with
  | nil => exact ⟨rfl, rfl⟩
  | cons b0 bs ih =>
      have h1 := decLock_getD bufs b0 b d
      have h2 := ih (decLock bufs b0)
      exact ⟨h2.1.trans h1.1, h2.2.trans h1.2⟩

/-- Releasing one lock decrements exactly the targeted buffer's counter. -/
theorem decLock_locks (bufs : List Buf) (b0 b : Nat) (d : Buf) (hb : b < bufs.length) :
    ((decLock bufs b0).getD b d).locks =
      (bufs.getD b d).locks - (if b = b0 then 1 else 0) := by
  unfold decLock
  cases hg : bufs.get? b0 with
  | none =>
      have hge : bufs.length ≤ b0 := List.get?_eq_none.mp hg
      have hne : b ≠ b0 := fun he => Nat.not_lt.mpr hge (he ▸ hb)
      rw [if_neg hne, Nat.sub_zero]
  | some r =>
      by_cases hbe : b = b0
      · subst hbe
        have hgd : bufs.getD b d = r := by
          rw [List.getD_eq_getD_get?, hg]
          rfl
        rw [lgetD_set_self _ _ _ _ hb, hgd, if_pos rfl]
      · rw [lgetD_set_ne _ _ _ _ _ (fun he => hbe he.symm), if_neg hbe, Nat.sub_zero]

/-- Releasing a list of locks subtracts each buffer's multiplicity. -/
theorem decLocks_locks (bs : List Nat) (bufs : List Buf) (b : Nat) (d : Buf)
    (hb : b < bufs.length) :
    ((decLocks bufs bs).getD b d).locks = (bufs.getD b d).locks - bs.count b := by
  induction bs generalizing bufs with
  | nil => simp [decLocks]
  | cons b0 bs ih =>
      have hb2 : b < (decLock bufs b0).length := by
        rw [decLock_length]
        exact hb
      have h1 := ih (decLock bufs b0) hb2
      have h2 := decLock_locks bufs b0 b d hb
      have hc : (b0 :: bs).count b = bs.count b + (if b = b0 then 1 else 0) := by
        by_cases hbe : b = b0
        · subst hbe
          simp [List.count_cons]
        · simp [List.count_cons, hbe]
      show ((decLocks (decLock bufs b0) bs).getD b d).locks = _
      rw [h1, h2, hc]
      omega

theorem count_flatten_sum (L : List (List Nat)) (b : Nat) :
    L.flatten.count b = (L.map (fun l => l.count b)).sum := by
  induction L with
  | nil => rfl
  | cons l ls ih =>
      rw [List.flatten_cons, List.count_append, ih]
      rfl

/-- Summing a per-node count over a duplicate-free list that contains every
node with a nonzero count equals summing it over all node ids. -/
theorem sum_count_eq_of_holders (g : Nat → Nat) (ancs : List Nat) (n : Nat)
    (hnd : ancs.Nodup)
    (hz1 : ∀ j, j < n → j ∉ ancs → g j = 0)
    (hz2 : ∀ j, n ≤ j → g j = 0) :
    (ancs.map g).sum = ((List.range n).map g).sum := by
  have h1 : (ancs.map g).sum = ∑ i ∈ ancs.toFinset, g i :=
    (List.sum_toFinset g hnd).symm
  have h2 : ((List.range n).map g).sum = ∑ i ∈ (List.range n).toFinset, g i :=
    (List.sum_toFinset g (List.nodup_range n)).symm
  have e1 : ∑ i ∈ ancs.toFinset, g i =
      ∑ i ∈ (ancs.toFinset ∪ (List.range n).toFinset), g i := by
    apply Finset.sum_subset Finset.subset_union_left
    intro x hx hnx
    have hxr : x < n := by
      rcases Finset.mem_union.mp hx with h | h
      · exact absurd h hnx
      · exact List.mem_range.mp (List.mem_toFinset.mp h)
    exact hz1 x hxr (fun hmem => hnx (List.mem_toFinset.mpr hmem))
  have e2 : ∑ i ∈ (List.range n).toFinset, g i =
      ∑ i ∈ (ancs.toFinset ∪ (List.range n).toFinset), g i := by
    apply Finset.sum_subset Finset.subset_union_right
    intro x hx hnx
    exact hz2 x
      (Nat.le_of_not_lt (fun hlt => hnx (List.mem_toFinset.mpr (List.mem_range.mpr hlt))))
  rw [h1, h2, e1, e2]

/-- When every node holding a lock on buffer b lies in the released ancestor
set, the lock release of a backward pass (or clear_graph) drives b's counter
to exactly zero — by the lock-accounting invariant, the released multiset
contains all of b's outstanding locks. -/
theorem locks_after_release (s : State) (t b : Nat)
    (hb : b < s.bufs.length) (hinv : LockInv s)
    (hhold : ∀ j, j < s.nodes.length → b ∈ (nodeAt s j).locked → j ∈ backAncs s t) :
    ((decLocks s.bufs
        (((backAncs s t).map (fun i => (nodeAt s i).locked)).flatten)).getD b
      ⟨[], true, 0⟩).locks = 0 := by
  rw [decLocks_locks _ _ _ _ hb]
  have hc1 : (((backAncs s t).map (fun i => (nodeAt s i).locked)).flatten).count b
      = ((backAncs s t).map (fun i => ((nodeAt s i).locked).count b)).sum := by
    rw [count_flatten_sum, List.map_map]
    rfl
  have hc2 : (((List.range s.nodes.length).map
        (fun j => (nodeAt s j).locked)).flatten).count b
      = ((List.range s.nodes.length).map (fun j => ((nodeAt s j).locked).count b)).sum := by
    rw [count_flatten_sum, List.map_map]
    rfl
  have hsum : ((backAncs s t).map (fun i => ((nodeAt s i).locked).count b)).sum
      = ((List.range s.nodes.length).map (fun j => ((nodeAt s j).locked).count b)).sum := by
    apply sum_count_eq_of_holders
    · exact List.nodup_dedup _
    · intro j hj hnj
      exact List.count_eq_zero.mpr (fun hm => hnj (hhold j hj hm))
    · intro j hj
      have hdef : (nodeAt s j).locked = [] := by
        unfold nodeAt
        rw [List.getD_eq_default _ _ hj]
        rfl
      rw [hdef]
      rfl
  have hli := hinv b hb
  rw [hc2] at hli
  rw [hc1, hsum]
  have hba : s.bufs.getD b ⟨[], true, 0⟩ = bufAt s b := rfl
  rw [hba, hli]
  exact Nat.sub_self _

/-- C7: writeability round-trip, for every state, buffer and backward target.
A freshly created leaf's buffer observes exactly its declared writeability
before any graph construction; any buffer carrying an outstanding memory-guard
lock (a pending backward dependency) observes writeability false; and once a
backward pass — or an early clear_graph — over a tensor whose graph holds all
of the buffer's outstanding locks completes, the buffer's observed
writeability is restored to its original declared value, whether that declared
value is true or false.  `LockInv` is the lock-accounting invariant tying
counters to the recorded lock entries. -/
theorem writeability_roundtrip (s0 : State) (d0 : List Int) (c0 w0 : Bool)
    (s : State) (t b : Nat) (sd : Option (List Int))
    (hb : b < s.bufs.length) (hinv : LockInv s)
    (hhold : ∀ j, j < s.nodes.length → b ∈ (nodeAt s j).locked → j ∈ backAncs s t) :
    writeableOf (mkLeaf s0 d0 c0 w0).1
        (bufOfObj (mkLeaf s0 d0 c0 w0).1 (mkLeaf s0 d0 c0 w0).2) = w0 ∧
    (0 < (bufAt s b).locks → writeableOf s b = false) ∧
    writeableOf (backward s t sd) b = (bufAt s b).origW ∧
    writeableOf (clearGraph s t) b = (bufAt s b).origW := by
  have hrel := locks_after_release s t b hb hinv hhold
  have hW := (decLocks_getD (((backAncs s t).map (fun i => (nodeAt s i).locked)).flatten)
      s.bufs b ⟨[], true, 0⟩).2
  refine ⟨?_, ?_, ?_, ?_⟩
  · have h1 : tensAt (mkLeaf s0 d0 c0 w0).1 (mkLeaf s0 d0 c0 w0).2 =
        ⟨s0.nodes.length, none⟩ := lgetD_append_last _ _ _
    have h2 : nodeAt (mkLeaf s0 d0 c0 w0).1 s0.nodes.length =
        ⟨s0.bufs.length, List.range d0.length, none, none, c0, []⟩ :=
      lgetD_append_last _ _ _
    have h3 : bufAt (mkLeaf s0 d0 c0 w0).1 s0.bufs.length = ⟨d0, w0, 0⟩ :=
      lgetD_append_last _ _ _
    simp only [writeableOf, bufOfObj, h1, h2, h3]
    exact Bool.and_true w0
  · intro hl
    unfold writeableOf
    cases hc : (bufAt s b).locks with
    | zero => rw [hc] at hl; exact absurd hl (Nat.lt_irrefl 0)
    | succ k => exact Bool.and_false _
  · have hbb : bufAt (backward s t sd) b =
        (decLocks s.bufs
          (((backAncs s t).map (fun i => (nodeAt s i).locked)).flatten)).getD b
        ⟨[], true, 0⟩ := rfl
    unfold writeableOf
    rw [hbb, hrel, hW]
    exact Bool.and_true _
  · have hbb : bufAt (clearGraph s t) b =
        (decLocks s.bufs
          (((backAncs s t).map (fun i => (nodeAt s i).locked)).flatten)).getD b
        ⟨[], true, 0⟩ := rfl
    unfold writeableOf
    rw [hbb, hrel, hW]
    exact Bool.and_true _

/-- Leaf declared read-only: its buffer then participates in a recorded op. -/
def roX : State × Nat := mkLeaf initState [1, 2, 3, 4] false false

/-- Non-view op over the read-only leaf: records a pending lock on its buffer. -/
def roY : State × Nat := applyOp roX.1 .plus [roX.2]

/-- Witness for C7 at two concrete buffers: the read-only leaf's buffer locked
by recording `+x` (declared writeability false: read-only while pending,
restored to false by backward and by clear_graph), and the written family's
buffer of the guarded in-place assignment (declared true: read-only while
pending, restored to true by backward and by clear_graph). -/
theorem writeability_roundtrip_witness :
    (bufOfObj roY.1 roX.2 < roY.1.bufs.length ∧ LockInv roY.1 ∧
      (∀ j, j < roY.1.nodes.length →
        bufOfObj roY.1 roX.2 ∈ (nodeAt roY.1 j).locked → j ∈ backAncs roY.1 roY.2) ∧
      (bufAt roY.1 (bufOfObj roY.1 roX.2)).origW = false ∧
      0 < (bufAt roY.1 (bufOfObj roY.1 roX.2)).locks) ∧
    (writeableOf (mkLeaf initState [1, 2, 3, 4] false false).1
        (bufOfObj (mkLeaf initState [1, 2, 3, 4] false false).1
          (mkLeaf initState [1, 2, 3, 4] false false).2) = false ∧
      writeableOf roY.1 (bufOfObj roY.1 roX.2) = false ∧
      writeableOf (backward roY.1 roY.2 none) (bufOfObj roY.1 roX.2) = false ∧
      writeableOf (clearGraph roY.1 roY.2) (bufOfObj roY.1 roX.2) = false) ∧
    (bufOfObj (wrAfter false) (wrY false).2 < (wrAfter false).bufs.length ∧
      LockInv (wrAfter false) ∧
      (bufAt (wrAfter false) (bufOfObj (wrAfter false) (wrY false).2)).origW = true ∧
      0 < (bufAt (wrAfter false) (bufOfObj (wrAfter false) (wrY false).2)).locks) ∧
    (writeableOf (wrAfter false) (bufOfObj (wrAfter false) (wrY false).2) = false ∧
      writeableOf (wrBack false) (bufOfObj (wrAfter false) (wrY false).2) = true ∧
      writeableOf (wrClear false) (bufOfObj (wrAfter false) (wrY false).2) = true) := by
  have h1 := writeability_roundtrip initState [1, 2, 3, 4] false false roY.1 roY.2
    (bufOfObj roY.1 roX.2) none (by decide) (by decide) (by decide)
  have h2 := writeability_roundtrip initState [1, 2, 3, 4] false true (wrAfter false)
    (wrY false).2 (bufOfObj (wrAfter false) (wrY false).2) none (by decide) (by decide)
    (by decide)
  refine ⟨⟨by decide, by decide, by decide, by decide, by decide⟩,
    ⟨h1.1, h1.2.1 (by decide), h1.2.2.1.trans (by decide), h1.2.2.2.trans (by decide)⟩,
    ⟨by decide, by decide, by decide, by decide⟩,
    ⟨h2.2.1 (by decide), h2.2.2.1.trans (by decide), h2.2.2.2.trans (by decide)⟩⟩

/-! ### Scoped memory-guard override scenario (spec section 4.6) -/

/-- Leaf and upstream op recorded with the guard enabled. -/
def mgY (c : Bool) : State × Nat := applyOp (wrX c true).1 .plus [(wrX c true).2]

/-- In-place write performed with the guard disabled. -/
def mgWrite (c : Bool) : State :=
  tryInPlace (setGuard (mgY c).1 false) (mgY c).2 [0, 1, 2, 3] (.scalar 0)

/-- Guard restored after the scoped override exits. -/
def mgAfter (c : Bool) : State := setGuard (mgWrite c) true

/-- State after the backward pass through the mutated y. -/
def mgBack (c : Bool) : State := backward (mgAfter c) (mgY c).2 none

/-- C10: an in-place write under the scoped memory-guard override exempts only
the written family.  The write succeeds with the guard off and leaves the
written family's buffer writeable, but the upstream operand's buffer — locked
when the `+x` op was recorded with the guard on — is still read-only for the
pending backward pass; only after backward completes is its writeability
restored.  Holds for either declared constant flag. -/
theorem memguard_off_keeps_upstream_locked :
    ∀ c : Bool,
      setitem (setGuard (mgY c).1 false) (mgY c).2 [0, 1, 2, 3] (.scalar 0) = .ok (mgWrite c) ∧
      (mgAfter c).guard = true ∧
      writeableOf (mgAfter c) (bufOfObj (mgAfter c) (wrX c true).2) = false ∧
      writeableOf (mgAfter c) (bufOfObj (mgAfter c) (mgY c).2) = true ∧
      writeableOf (mgBack c) (bufOfObj (mgBack c) (wrX c true).2) = true ∧
      writeableOf (mgBack c) (bufOfObj (mgBack c) (mgY c).2) = true := by
  intro c
  cases c <;> exact (by decide)
